import Mathlib

/-!
# chart-doc-gen: the `walk` package

A shallow embedding of `walk/comment.go`, `walk/map.go` and `walk/scalar.go`.
Go strings are lists of code points, pointers are `Option`s, and the calls a
walker makes on its `Visitor` are recorded in an event trace.
-/

namespace ChartDocGen

/-- Go `string`, as the list of its code points. -/
abbrev GoString := List Char

/-- Go `error` values, identified by their message. -/
abbrev GoError := GoString

/-! ## strings -/

/-- Go `unicode.IsSpace`. -/
def isSpace (c : Char) : Bool :=
  c = '\t' || c = '\n' || c.toNat = 0x0B || c.toNat = 0x0C || c = '\r' || c = ' ' ||
  c.toNat = 0x85 || c.toNat = 0xA0 || c.toNat = 0x1680 ||
  (0x2000 ≤ c.toNat && c.toNat ≤ 0x200A) || c.toNat = 0x2028 || c.toNat = 0x2029 ||
  c.toNat = 0x202F || c.toNat = 0x205F || c.toNat = 0x3000

/-- Go `strings.TrimSpace`: leading, then trailing white space is removed. -/
def TrimSpace (s : GoString) : GoString := (s.dropWhile isSpace).rdropWhile isSpace

/-- Go `strings.TrimPrefix`: one occurrence of `pre` is removed from the front. -/
def TrimPrefix (s pre : GoString) : GoString :=
  if pre.isPrefixOf s then s.drop pre.length else s

/-- Go `strings.Join`. -/
def Join (elems : List GoString) (sep : GoString) : GoString := sep.intercalate elems

/-! ## walk/comment.go -/

/-- `CommentValue` of walk/comment.go. -/
def CommentValue (line : GoString) : GoString :=
  let result := TrimSpace line
  let result := TrimPrefix result "#".toList
  let result := TrimSpace result
  result

/-- `CommentExampleValue` of walk/comment.go (the second `TrimSpace` is commented out
in the source). -/
def CommentExampleValue (line : GoString) : GoString :=
  let result := TrimSpace line
  let result := TrimPrefix result "#".toList
  result

/-- The directive token tested by `ignore` in `walkMap`. -/
def ignoreDirective : GoString := "+doc-gen:ignore".toList

/-- The directive token tested by `breakout` in `walkMap`. -/
def breakDirective : GoString := "+doc-gen:break".toList

/-- Every character of `w` is white space. -/
def allSpace (w : GoString) : Prop := ∀ c ∈ w, isSpace c = true

instance (w : GoString) : Decidable (allSpace w) := by
  unfold allSpace; infer_instance

/-- A token is solid when it is non-empty and neither starts nor ends with white space. -/
def solid (t : GoString) : Prop :=
  ∃ h : t ≠ [], isSpace (t.head h) = false ∧ isSpace (t.getLast h) = false

/-- The comment `c` is: white space, at most one `#`, white space, the token `t`,
white space. -/
def directiveShape (t c : GoString) : Prop :=
  ∃ w1 m w2 w3, allSpace w1 ∧ (m = [] ∨ m = ['#']) ∧ allSpace w2 ∧ allSpace w3 ∧
    c = w1 ++ m ++ w2 ++ t ++ w3

/-! ## kyaml nodes -/

/-- A scalar `yaml.Node`: its tag, its text and the comments attached to it. Map keys are
scalar nodes. -/
structure ScalarData where
  Tag : GoString
  Value : GoString
  HeadComment : GoString
  LineComment : GoString
deriving DecidableEq, Repr

/-- A non-nil `*yaml.RNode`. A mapping holds its (key, value) pairs in document order, a
sequence its elements. -/
inductive RNode where
  | scalar (d : ScalarData)
  | mapping (head line : GoString) (fields : List (ScalarData × RNode))
  | sequence (head line : GoString) (items : List RNode)
deriving Repr

/-- `yaml.MapNode`: a key of a mapping with its value. -/
abbrev MapNode := ScalarData × RNode

/-- `yaml.Kind` of the nodes of the model. -/
inductive Kind where
  | SequenceNode
  | MappingNode
  | ScalarNode
deriving DecidableEq, Repr

/-- `YNode().Kind`. -/
def RNode.Kind : RNode → Kind
  | .scalar _ => .ScalarNode
  | .mapping _ _ _ => .MappingNode
  | .sequence _ _ _ => .SequenceNode

/-- `yaml.NullNodeTag`. -/
def NullNodeTag : GoString := "!!null".toList

/-- `RNode.IsTaggedNull`; only scalars carry a tag in the model. -/
def RNode.IsTaggedNull : RNode → Bool
  | .scalar d => decide (d.Tag = NullNodeTag)
  | _ => false

/-- `yaml.IsMissingOrNull`: the node is nil or tagged null. -/
def IsMissingOrNull : Option RNode → Bool
  | none => true
  | some n => n.IsTaggedNull

/-- `yaml.IsEmpty`: the node is missing or null, a mapping without fields or a
sequence without elements. -/
def IsEmpty : Option RNode → Bool
  | none => true
  | some (.scalar d) => decide (d.Tag = NullNodeTag)
  | some (.mapping _ _ fs) => fs.isEmpty
  | some (.sequence _ _ is) => is.isEmpty

/-- `RNode.Fields`: the key names of a mapping in document order, an error (`none`)
for any other node. -/
def RNode.Fields : RNode → Option (List GoString)
  | .mapping _ _ fs => some (fs.map (fun f => f.1.Value))
  | _ => none

/-- `RNode.Field`: the first field of a mapping whose key text is `field`, nil when there
is none or the node is no mapping. -/
def RNode.Field : RNode → GoString → Option MapNode
  | .mapping _ _ fs, field => fs.find? (fun f => decide (f.1.Value = field))
  | _, _ => none

/-- Replace the value of the first field named `name`. -/
def setFirst (name : GoString) (v : RNode) : List MapNode → List MapNode
  | [] => []
  | f :: tl => if f.1.Value = name then (f.1, v) :: tl else f :: setFirst name v tl

/-- `yaml.Clear(name)` on a mapping's fields: the first field named `name` is removed. -/
def clearFirst (name : GoString) (fs : List MapNode) : List MapNode :=
  fs.eraseP (fun f => decide (f.1.Value = name))

/-- The text `YNode().Value` of a node: empty for mappings and sequences. -/
def RNode.valueText : RNode → GoString
  | .scalar d => d.Value
  | _ => []

/-- `dest.Pipe(yaml.FieldSetter{Name: name, Value: val})` as the new content of `dest`,
or the error. `clears` is the test under which FieldSetter removes the field instead of
setting it for a non-nil value (a nil value always clears). With an empty name the
receiver has to be a scalar, whose text is then overwritten. -/
def FieldSetter (clears : RNode → Bool) (dest : RNode) (name : GoString)
    (val : Option RNode) : Except GoError RNode :=
  if name = [] then
    match dest with
    | .scalar d =>
      .ok (.scalar { d with Value := if IsMissingOrNull val then [] else
        (val.map RNode.valueText).getD [] })
    | _ => .error "wrong Node Kind".toList
  else
    match dest with
    | .mapping h c fs =>
      match val with
      | none => .ok (.mapping h c (clearFirst name fs))
      | some v =>
        if clears v then .ok (.mapping h c (clearFirst name fs))
        else if (fs.find? (fun f => decide (f.1.Value = name))).isSome then
          .ok (.mapping h c (setFirst name v fs))
        else .ok (.mapping h c (fs ++ [(⟨[], name, [], []⟩, v)]))
    | _ => .error "wrong Node Kind".toList

/-! ## schemas -/

/-- The parts of `spec.Schema` the walker looks at: the description, the text of the
reference (`Ref.String()`), and the rest of its content. -/
structure SpecSchema where
  Description : GoString
  Ref : GoString
  Extensions : List GoString
deriving DecidableEq, Repr

/-- The zero value `spec.Schema{}`. -/
def SpecSchema.zero : SpecSchema := ⟨[], [], []⟩

/-- A non-nil `*openapi.ResourceSchema`; its `Schema` pointer may be nil. -/
structure ResourceSchema where
  Schema : Option SpecSchema
deriving DecidableEq, Repr

/-- `(*ResourceSchema).IsEmpty`, which accepts a nil receiver. -/
def ResourceSchema.IsEmpty : Option ResourceSchema → Bool
  | none => true
  | some ⟨none⟩ => true
  | some ⟨some s⟩ => decide (s = SpecSchema.zero)

/-- `fieldmeta.FieldMeta`: the schema read from a comment and its own extensions. -/
structure FieldMeta where
  Schema : SpecSchema
  Extensions : GoString
deriving DecidableEq, Repr

/-- `FieldMeta.IsEmpty`: the schema is the zero value. -/
def FieldMeta.IsEmpty (fm : FieldMeta) : Bool := decide (fm.Schema = SpecSchema.zero)

/-- The library calls whose code is outside the repository: `fm.Read(node)` (the error
and the updated receiver), `openapi.Resolve(&ref)` (schema and error), the lookup
`(*ResourceSchema).Field(key)`, and FieldSetter's test for clearing a non-nil value. -/
structure Env where
  Read : FieldMeta → RNode → Option GoError × FieldMeta
  Resolve : GoString → Option SpecSchema × Option GoError
  SchemaField : ResourceSchema → GoString → Option ResourceSchema
  clears : RNode → Bool

/-- What the pointer `s.Schema` of `valueIfPresent` refers to: the field `fm.Schema` of
the local `fm` (so later writes to `fm` show through it), or a resolved schema. -/
inductive SchemaPtr where
  | fmSchema
  | resolved (r : SpecSchema)
deriving DecidableEq, Repr

/-- Read `s` once `fm` has its final content. -/
def SchemaPtr.deref (fm : FieldMeta) : SchemaPtr → ResourceSchema
  | .fmSchema => ⟨some fm.Schema⟩
  | .resolved r => ⟨some r⟩

/-- The reference lookup `if fm.Schema.Ref.String() != "" \x7b r, err := Resolve(..);
if err == nil && r != nil \x7b s.Schema = r \x7d \x7d` on a non-nil `s`. -/
def resolveInto (env : Env) (fm : FieldMeta) (s : SchemaPtr) : SchemaPtr :=
  if fm.Schema.Ref ≠ [] then
    match env.Resolve fm.Schema.Ref with
    | (some r, none) => .resolved r
    | _ => s
  else s

/-- `Walker.valueIfPresent`. The result is `none` when the assignment `s.Schema = r`
of the key branch is reached with `s == nil` (a nil pointer dereference). -/
def valueIfPresent (env : Env) (node : Option MapNode) :
    Option (Option RNode × Option ResourceSchema) :=
  match node with
  | none => some (none, none)
  | some node =>
    let fm0 : FieldMeta := ⟨SpecSchema.zero, []⟩
    -- check the value for a schema
    let r1 := env.Read fm0 node.2
    let fm1 := r1.2
    let s1 : Option SchemaPtr :=
      if r1.1 = none then some (resolveInto env fm1 .fmSchema) else none
    -- check the key for a schema
    if fm1.IsEmpty then
      let r2 := env.Read fm1 (.scalar node.1)
      let fm2 := r2.2
      let s2 : Option SchemaPtr := if r2.1 = none then some .fmSchema else s1
      if fm2.Schema.Ref ≠ [] then
        match env.Resolve fm2.Schema.Ref with
        | (some r, none) =>
          match s2 with
          | none => none
          | some _ => some (some node.2, some ⟨some r⟩)
        | _ => some (some node.2, s2.map (SchemaPtr.deref fm2))
      else some (some node.2, s2.map (SchemaPtr.deref fm2))
    else some (some node.2, s1.map (SchemaPtr.deref fm1))

/-- `Walker.fieldNames`: the names of the fields of `l.Source`, nil for a nil source;
the error of `Fields` is dropped. -/
def fieldNames (source : Option RNode) : List GoString :=
  match source with
  | none => []
  | some n => (n.Fields).getD []

/-- `Walker.fieldValue`; `none` when `valueIfPresent` panics. -/
def fieldValue (env : Env) (source : Option RNode) (fieldName : GoString) :
    Option (Option RNode × Option ResourceSchema) :=
  match source with
  | none => some (none, none)
  | some src =>
    let field := src.Field fieldName
    match valueIfPresent env field with
    | none => none
    | some (f, s) => some (f, if !ResourceSchema.IsEmpty s then s else none)

/-! ## the walker -/

/-- The `Visitor` interface. Each method returns the pair `(*yaml.RNode, error)` and may
change the visitor's own state `σ` (the documentation visitor appends rows to it).
Visitors are taken not to modify the nodes they are given in place. -/
structure Visitor (σ : Type) where
  VisitMap : Option RNode → Option ResourceSchema → σ → (Option RNode × Option GoError) × σ
  VisitScalar : Option RNode → Option ResourceSchema → σ → (Option RNode × Option GoError) × σ
  VisitList : Option RNode → Option ResourceSchema → σ → (Option RNode × Option GoError) × σ
  VisitLeaf : RNode → RNode → GoString → Option ResourceSchema → σ →
    (Option RNode × Option GoError) × σ

/-- The fields of `Walker` other than the embedded `Visitor`. -/
structure Walker where
  VisitKeysAsScalars : Bool
  InferAssociativeLists : Bool
  Schema : Option ResourceSchema
  Source : Option RNode
  Path : List GoString

/-- The calls a walker makes, in the order it makes them: the four Visitor methods with
their arguments, the recursive `Walk` of the walker of a field or element together with
the calls made inside it, and the `FieldSetter` applied to the destination. -/
inductive Event where
  | visitMap (source : Option RNode) (schema : Option ResourceSchema)
  | visitScalar (source : Option RNode) (schema : Option ResourceSchema)
  | visitList (source : Option RNode) (schema : Option ResourceSchema)
  | visitLeaf (key value : RNode) (path : GoString) (schema : Option ResourceSchema)
  | walk (sub : Walker) (calls : List Event)
  | setField (name : GoString) (value : Option RNode)

/-- How a call ends: it returns `(node, err)`, it panics, or the recursion is deeper
than the depth the model was given. -/
inductive Outcome where
  | ret (node : Option RNode) (err : Option GoError)
  | panicked
  | tooDeep

/-- The node a call returned, nil when it did not return. -/
def Outcome.node : Outcome → Option RNode
  | .ret node _ => node
  | _ => none

/-- The result of a walk: how it ended, the visitor's state and the calls made. -/
structure Res (σ : Type) where
  out : Outcome
  st : σ
  trace : List Event

/-- Put the events `tr` in front of the trace of `r`. -/
def Res.after {σ : Type} (tr : List Event) (r : Res σ) : Res σ :=
  { r with trace := tr ++ r.trace }

/-- The end of one pass through the body of the `for` loop of `walkMap`: the loop goes
on with the destination `dest` (`continue`, or the end of the body), or `walkMap`
returns. -/
inductive Step (σ : Type) where
  | next (dest : RNode) (st : σ) (trace : List Event)
  | stop (out : Outcome) (st : σ) (trace : List Event)

/-- The calls made during one pass through the loop body. -/
def Step.events {σ : Type} : Step σ → List Event
  | .next _ _ tr => tr
  | .stop _ _ tr => tr

/-- The `ignore` test of `walkMap` on a key. -/
def isIgnore (key : ScalarData) : Bool :=
  decide (CommentValue key.LineComment = ignoreDirective) ||
  decide (CommentValue key.HeadComment = ignoreDirective)

/-- The `breakout` test of `walkMap` on a key. -/
def isBreakout (key : ScalarData) : Bool :=
  decide (CommentValue key.LineComment = breakDirective)

/-- The walker `walkMap` builds for the value of the field `key`. -/
def subWalker (l : Walker) (key : GoString) (s : Option ResourceSchema)
    (fv : Option RNode) : Walker :=
  { VisitKeysAsScalars := l.VisitKeysAsScalars
    InferAssociativeLists := l.InferAssociativeLists
    Schema := s
    Source := fv
    Path := l.Path ++ [key] }

/-- The end of the loop body once `Walk` on the field's walker `sub` has given `r`: its
error is returned, else the value is set on `dest` with FieldSetter. -/
def setValue {σ : Type} (env : Env) (key : GoString) (dest : RNode) (sub : Walker)
    (r : Res σ) : Step σ :=
  match r.out with
  | .panicked => .stop .panicked r.st [.walk sub r.trace]
  | .tooDeep => .stop .tooDeep r.st [.walk sub r.trace]
  | .ret val err =>
    if err.isSome then .stop (.ret none err) r.st [.walk sub r.trace]
    else
      -- this handles empty and non-empty values
      match FieldSetter env.clears dest key val with
      | .error e => .stop (.ret none (some e)) r.st [.walk sub r.trace, .setField key val]
      | .ok dest2 => .next dest2 r.st [.walk sub r.trace, .setField key val]

/-- The schema `s` of the field's walker: the field schema of `l.Schema`, replaced by the
schema read from the comments when there is one. -/
def fieldSchema (env : Env) (l : Walker) (key : GoString)
    (commentSch : Option ResourceSchema) : Option ResourceSchema :=
  let s : Option ResourceSchema :=
    match l.Schema with
    | some sch => env.SchemaField sch key
    | none => none
  if commentSch.isSome then commentSch else s

/-- The end of the loop body of `walkMap` (from `var s *openapi.ResourceSchema` on):
the schema of the field, the recursive walk of its value, and the FieldSetter. -/
def walkValue {σ : Type} (env : Env) (walk : Walker → σ → Res σ) (l : Walker)
    (key : GoString) (dest : RNode) (st : σ) : Step σ :=
  match fieldValue env (some dest) key with
  | none => .stop .panicked st []
  | some (fv, commentSch) =>
    let sub := subWalker l key (fieldSchema env l key commentSch) fv
    setValue env key dest sub (walk sub st)

/-- The leaf test of `walkMap`: the value is a scalar, is empty, or `breakout` is set. -/
def isLeaf (field : MapNode) : Bool :=
  decide (field.2.Kind = Kind.ScalarNode) || IsEmpty (some field.2) || isBreakout field.1

/-- Put the events `tr` in front of those of a step. -/
def Step.after {σ : Type} (tr : List Event) : Step σ → Step σ
  | .next d s t => .next d s (tr ++ t)
  | .stop o s t => .stop o s (tr ++ t)

/-- The loop body of `walkMap` from the `breakout` test on, for a key that was visited
as a scalar and is not ignored. -/
def visitField {σ : Type} (env : Env) (V : Visitor σ) (walk : Walker → σ → Res σ)
    (l : Walker) (key : GoString) (field : MapNode) (dest : RNode) (st : σ) : Step σ :=
  let path := Join (l.Path ++ [key]) ".".toList
  if isLeaf field then
    let r2 := V.VisitLeaf (.scalar field.1) field.2 path none st
    let ev2 := Event.visitLeaf (.scalar field.1) field.2 path none
    if r2.1.2.isSome then .stop (.ret none r2.1.2) r2.2 [ev2]
    else if isBreakout field.1 then .next dest r2.2 [ev2]
    else (walkValue env walk l key dest r2.2).after [ev2]
  else walkValue env walk l key dest st

/-- The body of the `for` loop of `walkMap` for one `key`; `dest` is the node `l.Source`
and `dest` both point to, which FieldSetter changes in place. It is not nil, so the
test `l.Source == nil` of the source never holds. -/
def walkField {σ : Type} (env : Env) (V : Visitor σ) (walk : Walker → σ → Res σ)
    (l : Walker) (key : GoString) (dest : RNode) (st : σ) : Step σ :=
  if l.VisitKeysAsScalars then
    match dest.Field key with
    | none => .next dest st []
    | some field =>
      if IsEmpty (some (.scalar field.1)) then .next dest st []
      else
        -- visit the sources as a scalar; keys do not have any schema
        let r1 := V.VisitScalar (some (.scalar field.1)) none st
        let ev1 := Event.visitScalar (some (.scalar field.1)) none
        if r1.1.2.isSome then .stop (.ret none r1.1.2) r1.2 [ev1]
        else if isIgnore field.1 then .next dest r1.2 [ev1]
        else (visitField env V walk l key field dest r1.2).after [ev1]
  else walkValue env walk l key dest st

/-- The `for` loop of `walkMap` over the names still to visit, and the final
`return dest, nil`. -/
def walkFields {σ : Type} (env : Env) (V : Visitor σ) (walk : Walker → σ → Res σ)
    (l : Walker) : List GoString → RNode → σ → Res σ
  | [], dest, st => ⟨.ret (some dest) none, st, []⟩
  | key :: rest, dest, st =>
    match walkField env V walk l key dest st with
    | .next dest2 st2 tr => (walkFields env V walk l rest dest2 st2).after tr
    | .stop out st2 tr => ⟨out, st2, tr⟩

/-- `Walker.walkMap`; `walk` is the method `Walk` called on the walker of a field. -/
def walkMap {σ : Type} (env : Env) (V : Visitor σ) (walk : Walker → σ → Res σ)
    (l : Walker) (st : σ) : Res σ :=
  -- get the new map value
  let r := V.VisitMap l.Source l.Schema st
  let ev := Event.visitMap l.Source l.Schema
  match r.1.1 with
  | none => ⟨.ret none r.1.2, r.2, [ev]⟩
  | some dest =>
    if r.1.2.isSome then ⟨.ret none r.1.2, r.2, [ev]⟩
    else
      -- l.Source = dest; recursively set the field values on the map
      (walkFields env V walk l (fieldNames (some dest)) dest r.2).after [ev]

/-- `Walker.walkScalar`. -/
def walkScalar {σ : Type} (V : Visitor σ) (l : Walker) (st : σ) : Res σ :=
  let r := V.VisitScalar l.Source l.Schema st
  ⟨.ret r.1.1 r.1.2, r.2, [.visitScalar l.Source l.Schema]⟩

/-- The walker of the element `e` at index `i` of a sequence. -/
def elemWalker (l : Walker) (elemPath : List GoString → Nat → List GoString)
    (e : RNode) (i : Nat) : Walker :=
  { VisitKeysAsScalars := l.VisitKeysAsScalars
    InferAssociativeLists := l.InferAssociativeLists
    Schema := l.Schema
    Source := some e
    Path := elemPath l.Path i }

/-- Modelled from the spec: one element of the sequence walk of §4.4 (`walkSequence`
is not among the sources): the walk `r` of the element ended the whole walk, or its
result, when not nil, is put in front of the results `k` gives for the elements after
it. -/
def consItem {σ : Type} (sub : Walker) (r : Res σ)
    (k : σ → (Outcome ⊕ List RNode) × σ × List Event) :
    (Outcome ⊕ List RNode) × σ × List Event :=
  match r.out with
  | .panicked => (.inl .panicked, r.st, [.walk sub r.trace])
  | .tooDeep => (.inl .tooDeep, r.st, [.walk sub r.trace])
  | .ret val err =>
    if err.isSome then (.inl (.ret none err), r.st, [.walk sub r.trace])
    else
      match k r.st with
      | (.inl o, st2, tr) => (.inl o, st2, .walk sub r.trace :: tr)
      | (.inr vals, st2, tr) => (.inr (val.toList ++ vals), st2, .walk sub r.trace :: tr)

/-- Modelled from the spec: the loop of the sequence walk of §4.4, whose code
(`walkSequence`) is not among the sources: "recurse into each element in positional
order"; the results that are not nil are collected in order. The path of an element is
"per the merge policy", which the spec leaves open: `elemPath` is that policy. -/
def walkItems {σ : Type} (walk : Walker → σ → Res σ) (l : Walker)
    (elemPath : List GoString → Nat → List GoString) :
    List RNode → Nat → σ → (Outcome ⊕ List RNode) × σ × List Event
  | [], _, st => (.inr [], st, [])
  | e :: rest, i, st =>
    consItem (elemWalker l elemPath e i) (walk (elemWalker l elemPath e i) st)
      (walkItems walk l elemPath rest (i + 1))

/-- Modelled from the spec: the sequence walk of §4.4 and §4.5 (`walkSequence` is not
among the sources): visit-sequence gives the destination, a nil destination drops the
subtree, and "element results are assembled into the destination sequence preserving
order". -/
def walkSequence {σ : Type} (V : Visitor σ) (walk : Walker → σ → Res σ)
    (elemPath : List GoString → Nat → List GoString) (l : Walker) (st : σ) : Res σ :=
  let r := V.VisitList l.Source l.Schema st
  let ev := Event.visitList l.Source l.Schema
  match r.1.1 with
  | none => ⟨.ret none r.1.2, r.2, [ev]⟩
  | some dest =>
    if r.1.2.isSome then ⟨.ret none r.1.2, r.2, [ev]⟩
    else
      match l.Source with
      | some (.sequence _ _ items) =>
        match walkItems walk l elemPath items 0 r.2 with
        | (.inl o, st2, tr) => ⟨o, st2, ev :: tr⟩
        | (.inr vals, st2, tr) =>
          match dest with
          | .sequence h c _ => ⟨.ret (some (.sequence h c vals)) none, st2, ev :: tr⟩
          | d => ⟨.ret (some d) none, st2, ev :: tr⟩
      | _ => ⟨.ret (some dest) none, r.2, [ev]⟩

/-- Modelled from the spec: the method `Walk` (walk.go is not among the sources), the
"dispatch by source Node kind" of §4.4 to `walkMap`, `walkSequence` and `walkScalar`;
a nil source gives a nil destination. `depth` bounds the nesting of the recursion, which
the Go code leaves unbounded. -/
def Walk {σ : Type} (env : Env) (V : Visitor σ)
    (elemPath : List GoString → Nat → List GoString) : Nat → Walker → σ → Res σ
  | 0, _, st => ⟨.tooDeep, st, []⟩
  | depth + 1, l, st =>
    match l.Source with
    | none => ⟨.ret none none, st, []⟩
    | some (.scalar _) => walkScalar V l st
    | some (.mapping _ _ _) => walkMap env V (Walk env V elemPath depth) l st
    | some (.sequence _ _ _) => walkSequence V (Walk env V elemPath depth) elemPath l st

/-! ## instances used in examples -/

/-- A no-op Visitor: VisitMap, VisitScalar and VisitList return their input unchanged,
VisitLeaf records nothing. -/
def noopVisitor : Visitor Unit where
  VisitMap := fun src _ st => ((src, none), st)
  VisitScalar := fun src _ st => ((src, none), st)
  VisitList := fun src _ st => ((src, none), st)
  VisitLeaf := fun _ value _ _ st => ((some value, none), st)

/-- A Visitor whose VisitScalar fails. -/
def failingVisitor : Visitor Unit where
  VisitMap := fun src _ st => ((src, none), st)
  VisitScalar := fun _ _ st => ((none, some "no scalars".toList), st)
  VisitList := fun src _ st => ((src, none), st)
  VisitLeaf := fun _ value _ _ st => ((some value, none), st)

/-- The library on documents without type markers: `Read` finds no schema, nothing
resolves, no field schema is known, and FieldSetter clears a field whose value is nil or
tagged null, as kyaml's does. -/
def plainEnv : Env where
  Read := fun fm _ => (none, fm)
  Resolve := fun _ => (none, some "not found".toList)
  SchemaField := fun _ _ => none
  clears := RNode.IsTaggedNull

/-- The path of the element `i` of a sequence at `path`: the index is appended. -/
def indexPath (path : List GoString) (i : Nat) : List GoString :=
  path ++ [(toString i).toList]

/-- A walker at the root of `doc` that visits the keys as scalars. -/
def rootWalker (doc : RNode) : Walker :=
  { VisitKeysAsScalars := true
    InferAssociativeLists := false
    Schema := none
    Source := some doc
    Path := [] }

/-- A plain string scalar without comments. -/
def str (v : String) : RNode := .scalar ⟨"!!str".toList, v.toList, [], []⟩

/-- A key without comments. -/
def key (k : String) : ScalarData := ⟨"!!str".toList, k.toList, [], []⟩

/-- A key with a line comment. -/
def keyLine (k c : String) : ScalarData := ⟨"!!str".toList, k.toList, [], c.toList⟩

mutual
/-- The paths of the VisitLeaf calls of one call and of the calls inside it. -/
def Event.leafPaths : Event → List GoString
  | .visitLeaf _ _ p _ => [p]
  | .walk _ calls => leafPaths calls
  | _ => []
/-- The paths of the VisitLeaf calls of a trace, at any depth, in order. -/
def leafPaths : List Event → List GoString
  | [] => []
  | e :: tl => e.leafPaths ++ leafPaths tl
end

/-- The destination a walk returned, if it returned one. -/
def Res.dest {σ : Type} (r : Res σ) : Option RNode :=
  match r.out with
  | .ret node _ => node
  | _ => none

/-- A Visitor whose VisitMap returns a nil destination together with an error. -/
def droppingVisitor : Visitor Unit where
  VisitMap := fun _ _ st => ((none, some "dropped".toList), st)
  VisitScalar := fun src _ st => ((src, none), st)
  VisitList := fun src _ st => ((src, none), st)
  VisitLeaf := fun _ value _ _ st => ((some value, none), st)

/-- Go string comparison `a < b`: lexicographic on the code points. -/
def strLess : GoString → GoString → Bool
  | [], [] => false
  | [], _ :: _ => true
  | _ :: _, [] => false
  | a :: as, b :: bs => decide (a.toNat < b.toNat) || (decide (a = b) && strLess as bs)

/-- Go `sort.StringsAreSorted`. -/
def StringsAreSorted : List GoString → Bool
  | a :: b :: tl => !strLess b a && StringsAreSorted (b :: tl)
  | _ => true

mutual
/-- The schemas handed to VisitLeaf by one call and by the calls inside it. -/
def Event.leafSchemas : Event → List (Option ResourceSchema)
  | .visitLeaf _ _ _ s => [s]
  | .walk _ calls => leafSchemas calls
  | _ => []
/-- The schemas handed to VisitLeaf in a trace, at any depth, in order. -/
def leafSchemas : List Event → List (Option ResourceSchema)
  | [] => []
  | e :: tl => e.leafSchemas ++ leafSchemas tl
end

/-- Every VisitLeaf call of the event, at any depth, carries a nil schema. -/
def Event.leafSchemaNil (e : Event) : Prop := ∀ s ∈ e.leafSchemas, s = none

/-- The schemas of the walkers of the recursive `Walk` calls a walker makes itself. -/
def walkSchemas : List Event → List (Option ResourceSchema)
  | [] => []
  | .walk sub _ :: tl => sub.Schema :: walkSchemas tl
  | _ :: tl => walkSchemas tl

/-- A library whose `Read` finds a schema with a description on every node. -/
def describedEnv : Env where
  Read := fun fm _ => (none, { fm with Schema := ⟨"from the schema".toList, [], []⟩ })
  Resolve := fun _ => (none, some "not found".toList)
  SchemaField := fun _ _ => none
  clears := RNode.IsTaggedNull

/-- A property `P` of events that holds of every call `walkMap` and the sequence walk
make themselves: the Visitor calls (VisitLeaf with the nil schema `walkMap` passes), the
FieldSetters, and the recursive walks whose inner calls have the property `Q`. -/
structure OwnCalls (Q P : Event → Prop) : Prop where
  visitMap : ∀ s sc, P (.visitMap s sc)
  visitScalar : ∀ s sc, P (.visitScalar s sc)
  visitList : ∀ s sc, P (.visitList s sc)
  visitLeaf : ∀ k v p, P (.visitLeaf k v p none)
  walk : ∀ sub calls, (∀ e ∈ calls, Q e) → P (.walk sub calls)
  setField : ∀ n v, P (.setField n v)

/-- The call concerns the field `key` of the map the walker `l` is on: a VisitLeaf at the
path of the field, the recursive walk of its value, or a FieldSetter on its name. -/
def Event.touches (l : Walker) (key : GoString) : Event → Prop
  | .visitLeaf _ _ p _ => p = Join (l.Path ++ [key]) ".".toList
  | .walk sub _ => sub.Path = l.Path ++ [key]
  | .setField n _ => n = key
  | _ => False

/-- One pass through the loop body leaves the field `key` alone: none of its calls
concerns the field, and the field is the same in the destination the loop goes on with. -/
def Step.keeps {σ : Type} (l : Walker) (key : GoString) (dest : RNode) (s : Step σ) : Prop :=
  (∀ e ∈ s.events, ¬ e.touches l key) ∧
  (∀ d st tr, s = .next d st tr → d.Field key = dest.Field key)

/-- The contract of kyaml's `FieldMeta.Read` that `valueIfPresent` relies on: `Read`
returns an error only after it has unmarshalled a schema (one with an `x-kustomize`
extension) into the receiver, so after a failed read the metadata is not empty. -/
def ReadKeepsSchema (env : Env) : Prop :=
  ∀ fm n, (env.Read fm n).1 ≠ none → (env.Read fm n).2.IsEmpty = false

/-- A library whose `Read` fails on every node, after storing a schema that has only an
extension, and whose registry resolves nothing. -/
def failingExtensionEnv : Env where
  Read := fun fm _ =>
    (some "bad x-kustomize extension".toList,
      { fm with Schema := ⟨[], "#/definitions/a".toList, ["x-kustomize".toList]⟩ })
  Resolve := fun _ => (none, some "not found".toList)
  SchemaField := fun _ _ => none
  clears := RNode.IsTaggedNull

mutual
/-- The nesting depth of a node. -/
def RNode.depth : RNode → Nat
  | .scalar _ => 0
  | .mapping _ _ fs => depthFields fs + 1
  | .sequence _ _ is => depthItems is + 1
/-- The greatest depth among the values of the fields. -/
def depthFields : List MapNode → Nat
  | [] => 0
  | (_, v) :: tl => max v.depth (depthFields tl)
/-- The greatest depth among the elements. -/
def depthItems : List RNode → Nat
  | [] => 0
  | v :: tl => max v.depth (depthItems tl)
end

mutual
/-- FieldSetter can put every field of the tree back: no field has an empty name, and
no value of a field is one FieldSetter clears. -/
def RNode.settable (clears : RNode → Bool) : RNode → Bool
  | .scalar _ => true
  | .mapping _ _ fs => settableFields clears fs
  | .sequence _ _ is => settableItems clears is
/-- `settable` on the fields of a mapping. -/
def settableFields (clears : RNode → Bool) : List MapNode → Bool
  | [] => true
  | (k, v) :: tl =>
    !decide (k.Value = []) && !clears v && v.settable clears && settableFields clears tl
/-- `settable` on the elements of a sequence. -/
def settableItems (clears : RNode → Bool) : List RNode → Bool
  | [] => true
  | v :: tl => v.settable clears && settableItems clears tl
end

/-- A null value without comments. -/
def nullNode : RNode := .scalar ⟨NullNodeTag, "null".toList, [], []⟩

/-- A walker at the root of `doc` that does not visit the keys as scalars. -/
def plainWalker (doc : RNode) : Walker :=
  { VisitKeysAsScalars := false
    InferAssociativeLists := false
    Schema := none
    Source := some doc
    Path := [] }

/-- The schemas handed to VisitLeaf by the calls a walker makes itself, those inside its
recursive walks left out. -/
def ownLeafSchemas : List Event → List (Option ResourceSchema)
  | [] => []
  | .visitLeaf _ _ _ s :: tl => s :: ownLeafSchemas tl
  | _ :: tl => ownLeafSchemas tl

/-- A VisitLeaf call carries a nil schema; any other call passes. -/
def Event.ownLeafSchemaNil : Event → Prop
  | .visitLeaf _ _ _ s => s = none
  | _ => True

/-- A sample document: scalars, a nested map, a sequence and an empty map. -/
def sampleDoc : RNode :=
  .mapping [] []
    [(key "replicas", str "3"),
     (key "image", .mapping [] [] [(key "repo", str "nginx"), (key "tag", str "1.21")]),
     (key "args", .sequence [] [] [str "x", .mapping [] [] [(key "n", str "v")]]),
     (key "labels", .mapping [] [] [])]

/-- A leaf field, in the words of the spec: a field whose value is a scalar or is
empty. -/
def leafField (f : MapNode) : Bool :=
  decide (f.2.Kind = Kind.ScalarNode) || IsEmpty (some f.2)

mutual
/-- The paths of the leaf fields of a tree rooted at `path`, in document order
(pre-order, depth first); `elemPath` gives the path of the elements of a sequence. -/
def RNode.leafFields (elemPath : List GoString → Nat → List GoString) :
    List GoString → RNode → List GoString
  | _, .scalar _ => []
  | path, .mapping _ _ fs => leafFieldsOfFields elemPath path fs
  | path, .sequence _ _ is => leafFieldsOfItems elemPath path 0 is
/-- The leaf fields among the fields of a mapping and below them. -/
def leafFieldsOfFields (elemPath : List GoString → Nat → List GoString) :
    List GoString → List MapNode → List GoString
  | _, [] => []
  | path, (k, v) :: tl =>
    (if leafField (k, v) then [Join (path ++ [k.Value]) ".".toList] else []) ++
      v.leafFields elemPath (path ++ [k.Value]) ++ leafFieldsOfFields elemPath path tl
/-- The leaf fields below the elements of a sequence, from index `i` on. -/
def leafFieldsOfItems (elemPath : List GoString → Nat → List GoString) :
    List GoString → Nat → List RNode → List GoString
  | _, _, [] => []
  | path, i, v :: tl =>
    v.leafFields elemPath (elemPath path i) ++ leafFieldsOfItems elemPath path (i + 1) tl
end

mutual
/-- No key of the tree carries an ignore or break directive, is tagged null or has an
empty name, and the key names of every mapping are pairwise different. -/
def RNode.clean : RNode → Bool
  | .scalar _ => true
  | .mapping _ _ fs => cleanFields fs
  | .sequence _ _ is => cleanItems is
/-- `clean` on the fields of a mapping; each name differs from the names after it. -/
def cleanFields : List MapNode → Bool
  | [] => true
  | (k, v) :: tl =>
    !IsEmpty (some (.scalar k)) && !decide (k.Value = []) && !isIgnore k && !isBreakout k &&
      !decide (k.Value ∈ tl.map (fun f => f.1.Value)) && v.clean && cleanFields tl
/-- `clean` on the elements of a sequence. -/
def cleanItems : List RNode → Bool
  | [] => true
  | v :: tl => v.clean && cleanItems tl
end

mutual
/-- The text of the values handed to VisitLeaf by one call and the calls inside it. -/
def Event.leafValues : Event → List GoString
  | .visitLeaf _ v _ _ => [v.valueText]
  | .walk _ calls => leafValues calls
  | _ => []
/-- The text of the values handed to VisitLeaf in a trace, at any depth, in order. -/
def leafValues : List Event → List GoString
  | [] => []
  | e :: tl => e.leafValues ++ leafValues tl
end

/-- A recursive walk is the walk of the value of a field of the map the walker `l` is
on, at the path of the field and with the schema resolved for the field: the schema read
from the comments when there is one, else the field schema of `l.Schema`. Any other
call passes. -/
def Event.walkFrom (env : Env) (l : Walker) : Event → Prop
  | .walk sub _ =>
    ∃ key dest fv cs, fieldValue env (some dest) key = some (fv, cs) ∧
      sub.Source = fv ∧ sub.Path = l.Path ++ [key] ∧
      sub.Schema = (if cs.isSome then cs else
        match l.Schema with
        | some sch => env.SchemaField sch key
        | none => none)
  | _ => True

/-- The call goes below the field `key` of the map the walker `l` is on: the recursive
walk of its value, or a FieldSetter on its name. -/
def Event.descends (l : Walker) (key : GoString) : Event → Prop
  | .walk sub _ => sub.Path = l.Path ++ [key]
  | .setField n _ => n = key
  | _ => False

/-- The call is a VisitLeaf at the path `p`. -/
def Event.leafAt (p : GoString) : Event → Bool
  | .visitLeaf _ _ q _ => decide (q = p)
  | _ => false

/-! ## comment.go: theorems -/

theorem rdropWhile_append_rtake (p : Char → Bool) (l : GoString) :
    l.rdropWhile p ++ l.rtakeWhile p = l := by
  unfold List.rdropWhile List.rtakeWhile
  rw [← List.reverse_append, List.takeWhile_append_dropWhile, List.reverse_reverse]

theorem TrimSpace_decomp (s : GoString) :
    ∃ a b, allSpace a ∧ allSpace b ∧ s = a ++ TrimSpace s ++ b := by
  refine ⟨s.takeWhile isSpace, (s.dropWhile isSpace).rtakeWhile isSpace, ?_, ?_, ?_⟩
  · intro c hc; exact List.mem_takeWhile_imp hc
  · intro c hc; exact List.mem_rtakeWhile_imp hc
  · unfold TrimSpace
    rw [List.append_assoc, rdropWhile_append_rtake, List.takeWhile_append_dropWhile]

theorem dropWhile_allSpace_append (w r : GoString) (hw : allSpace w) :
    (w ++ r).dropWhile isSpace = r.dropWhile isSpace := by
  induction w with
  | nil => rfl
  | cons x xs ih =>
    have hx : isSpace x = true := hw x (List.mem_cons_self _ _)
    simp only [List.cons_append, List.dropWhile_cons, hx, if_true]
    exact ih (fun c hc => hw c (List.mem_cons_of_mem _ hc))

theorem rdropWhile_append_allSpace (r w : GoString) (hw : allSpace w) :
    (r ++ w).rdropWhile isSpace = r.rdropWhile isSpace := by
  unfold List.rdropWhile
  rw [List.reverse_append, dropWhile_allSpace_append]
  intro c hc; exact hw c (List.mem_reverse.mp hc)

theorem TrimSpace_pad (t w1 w2 : GoString) (ht : solid t) (h1 : allSpace w1)
    (h2 : allSpace w2) : TrimSpace (w1 ++ t ++ w2) = t := by
  obtain ⟨hne, hh, hl⟩ := ht
  unfold TrimSpace
  rw [List.append_assoc, dropWhile_allSpace_append _ _ h1]
  have hd : (t ++ w2).dropWhile isSpace = t ++ w2 := by
    cases t with
    | nil => exact absurd rfl hne
    | cons x xs =>
      simp only [List.head_cons] at hh
      simp [List.dropWhile_cons, hh]
  rw [hd, rdropWhile_append_allSpace _ _ h2]
  rw [List.rdropWhile_eq_self_iff]
  intro _; simp [hl]

theorem TrimPrefix_hash_cons (r : GoString) : TrimPrefix ('#' :: r) "#".toList = r := by
  simp [TrimPrefix, List.isPrefixOf]

theorem TrimPrefix_hash_other (r : GoString) (h : ∀ r2, r ≠ '#' :: r2) :
    TrimPrefix r "#".toList = r := by
  cases r with
  | nil => simp [TrimPrefix, List.isPrefixOf]
  | cons x xs =>
    have hx : x ≠ '#' := fun e => h xs (by rw [e])
    have hx2 : ¬ ('#' = x) := fun e => hx e.symm
    simp [TrimPrefix, List.isPrefixOf, hx2]

theorem allSpace_nil : allSpace [] := fun _ h => nomatch h

theorem allSpace_append {a b : GoString} (ha : allSpace a) (hb : allSpace b) :
    allSpace (a ++ b) := by
  intro c hc
  rcases List.mem_append.mp hc with h | h
  · exact ha c h
  · exact hb c h

theorem CommentValue_eq_iff (t c : GoString) (ht : solid t)
    (hh : ∀ r, t ≠ '#' :: r) : CommentValue c = t ↔ directiveShape t c := by
  constructor
  · intro h
    obtain ⟨a, b, ha, hb, hc⟩ := TrimSpace_decomp c
    simp only [CommentValue] at h
    by_cases hp : ∃ r2, TrimSpace c = '#' :: r2
    · obtain ⟨r2, hr2⟩ := hp
      rw [hr2, TrimPrefix_hash_cons] at h
      obtain ⟨a2, b2, ha2, hb2, hc2⟩ := TrimSpace_decomp r2
      rw [h] at hc2
      refine ⟨a, ['#'], a2, b2 ++ b, ha, Or.inr rfl, ha2, allSpace_append hb2 hb, ?_⟩
      rw [hc, hr2, hc2]; simp
    · have hp2 : ∀ r2, TrimSpace c ≠ '#' :: r2 := fun r2 e => hp ⟨r2, e⟩
      rw [TrimPrefix_hash_other _ hp2] at h
      obtain ⟨a2, b2, ha2, hb2, hc2⟩ := TrimSpace_decomp (TrimSpace c)
      rw [h] at hc2
      refine ⟨a, [], a2, b2 ++ b, ha, Or.inl rfl, ha2, allSpace_append hb2 hb, ?_⟩
      rw [hc, hc2]; simp
  · rintro ⟨w1, m, w2, w3, h1, hm, h2, h3, rfl⟩
    have htt : TrimSpace t = t := by
      have := TrimSpace_pad t [] [] ht allSpace_nil allSpace_nil
      simpa using this
    simp only [CommentValue]
    rcases hm with rfl | rfl
    · have e : w1 ++ [] ++ w2 ++ t ++ w3 = (w1 ++ w2) ++ t ++ w3 := by simp
      rw [e, TrimSpace_pad t _ _ ht (allSpace_append h1 h2) h3,
        TrimPrefix_hash_other _ hh, htt]
    · have hs : solid ('#' :: (w2 ++ t)) := by
        obtain ⟨hne, _, hl⟩ := ht
        refine ⟨by simp, by simp only [List.head_cons]; decide, ?_⟩
        have hk : ∀ (l : GoString) (h1 : l ++ t ≠ []), (l ++ t).getLast h1 = t.getLast hne :=
          fun _ _ => List.getLast_append_of_ne_nil hne
        exact (hk ('#' :: w2) (by simp)).symm ▸ hl
      have e : w1 ++ ['#'] ++ w2 ++ t ++ w3 = w1 ++ ('#' :: (w2 ++ t)) ++ w3 := by simp
      rw [e, TrimSpace_pad _ _ _ hs h1 h3, TrimPrefix_hash_cons]
      have := TrimSpace_pad t w2 [] ht h2 allSpace_nil
      simpa using this

theorem solid_ignoreDirective : solid ignoreDirective := ⟨by decide, by decide, by decide⟩

theorem solid_breakDirective : solid breakDirective := ⟨by decide, by decide, by decide⟩

/-- C4: `CommentValue c` is a directive token exactly when `c` is white space, at most
one `#`, white space, the token and white space; so `walkMap` takes a key for ignored or
for a break exactly on comments of that shape, and neither a comment with two markers
nor one with extra text is a directive. -/
theorem CommentValue_directive_iff (c : GoString) :
    (CommentValue c = ignoreDirective ↔ directiveShape ignoreDirective c) ∧
    (CommentValue c = breakDirective ↔ directiveShape breakDirective c) ∧
    (∀ k : ScalarData, isIgnore k = true ↔
      (directiveShape ignoreDirective k.LineComment ∨
        directiveShape ignoreDirective k.HeadComment)) ∧
    (∀ k : ScalarData, isBreakout k = true ↔ directiveShape breakDirective k.LineComment) ∧
    CommentValue "## +doc-gen:ignore".toList ≠ ignoreDirective ∧
    CommentValue "# +doc-gen:ignore later".toList ≠ ignoreDirective ∧
    CommentValue "## +doc-gen:break".toList ≠ breakDirective ∧
    isIgnore ⟨[], "a".toList, "# +doc-gen:ignore later".toList,
      "## +doc-gen:ignore".toList⟩ = false ∧
    isBreakout ⟨[], "a".toList, [], "# +doc-gen:break now".toList⟩ = false := by
  have hi : ∀ c, CommentValue c = ignoreDirective ↔ directiveShape ignoreDirective c :=
    fun c => CommentValue_eq_iff _ c solid_ignoreDirective (by
      intro r h
      have h2 : ignoreDirective.head? = some '#' := by rw [h]; rfl
      exact absurd h2 (by decide))
  have hb : ∀ c, CommentValue c = breakDirective ↔ directiveShape breakDirective c :=
    fun c => CommentValue_eq_iff _ c solid_breakDirective (by
      intro r h
      have h2 : breakDirective.head? = some '#' := by rw [h]; rfl
      exact absurd h2 (by decide))
  refine ⟨hi c, hb c, ?_, ?_, by decide, by decide, by decide, by decide, by decide⟩
  · intro k
    simp only [isIgnore, Bool.or_eq_true, decide_eq_true_eq, hi]
  · intro k
    simp only [isBreakout, decide_eq_true_eq, hb]

/-- C5, as the code has it: of a line made of white space, the marker `#`, a body that
does not end in white space, and white space, `CommentExampleValue` returns the body
unchanged: the white space after the marker and inside the body is kept, the white
space around the line is not. -/
theorem CommentExampleValue_body (w1 body w2 : GoString) (h1 : allSpace w1)
    (h2 : allSpace w2) (hb : ∀ h : body ≠ [], isSpace (body.getLast h) = false) :
    CommentExampleValue (w1 ++ '#' :: body ++ w2) = body := by
  have hs : solid ('#' :: body) := by
    refine ⟨by simp, by simp only [List.head_cons]; decide, ?_⟩
    by_cases hne : body = []
    · subst hne; decide
    · rw [List.getLast_cons hne]; exact hb hne
  have e : w1 ++ '#' :: body ++ w2 = w1 ++ ('#' :: body) ++ w2 := by simp
  simp only [CommentExampleValue]
  rw [e, TrimSpace_pad _ _ _ hs h1 h2, TrimPrefix_hash_cons]

theorem CommentExampleValue_body_witness :
    CommentExampleValue "  # a  b  ".toList = " a  b".toList :=
  CommentExampleValue_body "  ".toList " a  b".toList "  ".toList
    (by decide) (by decide) (fun _ => rfl)

/-- C5 fails as stated: the trailing spaces of `# a  b  ` are not kept. -/
theorem CommentExampleValue_drops_trailing :
    CommentExampleValue "# a  b  ".toList = " a  b".toList ∧
    CommentExampleValue "# a  b  ".toList ≠ " a  b  ".toList := by
  decide

/-! ## map.go: VisitMap and fieldNames -/

/-- C9: when VisitMap returns a nil destination, with or without an error, `walkMap`
returns a nil node with VisitMap's error and its only Visitor call is that VisitMap: no
key or leaf is visited, no field is walked and no field is set. -/
theorem walkMap_nil_dest {σ : Type} (env : Env) (V : Visitor σ)
    (walk : Walker → σ → Res σ) (l : Walker) (st : σ)
    (h : (V.VisitMap l.Source l.Schema st).1.1 = none) :
    (walkMap env V walk l st).out = .ret none (V.VisitMap l.Source l.Schema st).1.2 ∧
    (walkMap env V walk l st).trace = [.visitMap l.Source l.Schema] ∧
    (walkMap env V walk l st).st = (V.VisitMap l.Source l.Schema st).2 := by
  simp [walkMap, h]

theorem walkMap_nil_dest_witness :
    (droppingVisitor.VisitMap (rootWalker (.mapping [] [] [(key "a", str "1")])).Source
      none ()).1.1 = none ∧
    (walkMap plainEnv droppingVisitor (Walk plainEnv droppingVisitor indexPath 3)
      (rootWalker (.mapping [] [] [(key "a", str "1")])) ()).out
      = .ret none (some "dropped".toList) :=
  ⟨rfl, (walkMap_nil_dest plainEnv droppingVisitor (Walk plainEnv droppingVisitor indexPath 3)
    (rootWalker (.mapping [] [] [(key "a", str "1")])) () rfl).1⟩

/-- C10 at a failing input: the names of the map `b: 1, a: 2` come back from `fieldNames`
as `b, a`, which is not sorted, and `walkMap` visits the leaves in that order. -/
theorem fieldNames_not_sorted :
    fieldNames (some (.mapping [] [] [(key "b", str "1"), (key "a", str "2")]))
      = ["b".toList, "a".toList] ∧
    StringsAreSorted (fieldNames
      (some (.mapping [] [] [(key "b", str "1"), (key "a", str "2")]))) = false ∧
    leafPaths (walkMap plainEnv noopVisitor (Walk plainEnv noopVisitor indexPath 3)
      (rootWalker (.mapping [] [] [(key "b", str "1"), (key "a", str "2")])) ()).trace
      = ["b".toList, "a".toList] := by
  decide

/-! ## map.go: the calls of one pass through the loop -/

theorem Step.events_after {σ : Type} (tr : List Event) (s : Step σ) :
    (s.after tr).events = tr ++ s.events := by
  cases s <;> rfl

theorem setValue_events {σ : Type} (env : Env) (key : GoString) (dest : RNode)
    (sub : Walker) (r : Res σ) (e : Event) (he : e ∈ (setValue env key dest sub r).events) :
    e = .walk sub r.trace ∨ ∃ v, e = .setField key v := by
  rcases r with ⟨out, st, tr⟩
  cases out with
  | panicked =>
    simp only [setValue, Step.events, List.mem_singleton] at he
    exact Or.inl he
  | tooDeep =>
    simp only [setValue, Step.events, List.mem_singleton] at he
    exact Or.inl he
  | ret val err =>
    simp only [setValue] at he
    by_cases herr : err.isSome = true
    · simp only [herr, if_true, Step.events, List.mem_singleton] at he
      exact Or.inl he
    · simp only [herr] at he
      cases hfs : FieldSetter env.clears dest key val with
      | error e2 =>
        simp only [hfs, Step.events] at he
        simp only [Bool.false_eq_true, if_false, List.mem_cons, List.mem_singleton,
          List.not_mem_nil, or_false] at he
        rcases he with h | h
        · exact Or.inl h
        · exact Or.inr ⟨val, h⟩
      | ok d2 =>
        simp only [hfs, Step.events] at he
        simp only [Bool.false_eq_true, if_false, List.mem_cons, List.mem_singleton,
          List.not_mem_nil, or_false] at he
        rcases he with h | h
        · exact Or.inl h
        · exact Or.inr ⟨val, h⟩

theorem walkValue_forall {σ : Type} (Q P : Event → Prop) (hP : OwnCalls Q P) (env : Env)
    (walk : Walker → σ → Res σ) (hwalk : ∀ sub st, ∀ e ∈ (walk sub st).trace, Q e)
    (l : Walker) (key : GoString) (dest : RNode) (st : σ) :
    ∀ e ∈ (walkValue env walk l key dest st).events, P e := by
  intro e he
  unfold walkValue at he
  cases hfv : fieldValue env (some dest) key with
  | none => simp [hfv, Step.events] at he
  | some p =>
    obtain ⟨fv, cs⟩ := p
    simp only [hfv] at he
    rcases setValue_events _ _ _ _ _ e he with h | ⟨v, h⟩
    · rw [h]; exact hP.walk _ _ (hwalk _ _)
    · rw [h]; exact hP.setField _ _

theorem visitField_all {σ : Type} (P : Event → Prop) (_hm : ∀ s sc, P (.visitMap s sc))
    (_hs : ∀ s sc, P (.visitScalar s sc))
    (hl : ∀ k v p, P (.visitLeaf k v p none)) (env : Env)
    (V : Visitor σ) (walk : Walker → σ → Res σ)
    (l : Walker)
    (hval : ∀ key dest st, ∀ e ∈ (walkValue env walk l key dest st).events, P e)
    (key : GoString) (field : MapNode) (dest : RNode) (st : σ) :
    ∀ e ∈ (visitField env V walk l key field dest st).events, P e := by
  intro e he
  unfold visitField at he
  by_cases h1 : isLeaf field = true
  · simp only [h1, if_true] at he
    by_cases h2 : (V.VisitLeaf (.scalar field.1) field.2
        (Join (l.Path ++ [key]) ".".toList) none st).1.2.isSome = true
    · simp only [h2, if_true, Step.events, List.mem_singleton] at he
      rw [he]; exact hl _ _ _
    · simp only [h2] at he
      by_cases h3 : isBreakout field.1 = true
      · simp only [h3, if_true, Step.events, Bool.false_eq_true, if_false,
          List.mem_singleton] at he
        rw [he]; exact hl _ _ _
      · simp only [h3, Bool.false_eq_true, if_false, Step.events_after, List.mem_append,
          List.mem_singleton] at he
        rcases he with h | h
        · rw [h]; exact hl _ _ _
        · exact hval _ _ _ e h
  · simp only [h1, Bool.false_eq_true, if_false] at he
    exact hval _ _ _ e he

theorem walkField_all {σ : Type} (P : Event → Prop) (hm : ∀ s sc, P (.visitMap s sc))
    (hs : ∀ s sc, P (.visitScalar s sc))
    (hl : ∀ k v p, P (.visitLeaf k v p none)) (env : Env)
    (V : Visitor σ) (walk : Walker → σ → Res σ)
    (l : Walker)
    (hval : ∀ key dest st, ∀ e ∈ (walkValue env walk l key dest st).events, P e)
    (key : GoString) (dest : RNode) (st : σ) :
    ∀ e ∈ (walkField env V walk l key dest st).events, P e := by
  intro e he
  unfold walkField at he
  by_cases hk : l.VisitKeysAsScalars = true
  · simp only [hk, if_true] at he
    cases hf : dest.Field key with
    | none => simp [hf, Step.events] at he
    | some field =>
      simp only [hf] at he
      by_cases h0 : IsEmpty (some (.scalar field.1)) = true
      · simp [h0, Step.events] at he
      · simp only [h0, Bool.false_eq_true, if_false] at he
        by_cases h1 : (V.VisitScalar (some (.scalar field.1)) none st).1.2.isSome = true
        · simp only [h1, if_true, Step.events, List.mem_singleton] at he
          rw [he]; exact hs _ _
        · simp only [h1, Bool.false_eq_true, if_false] at he
          by_cases h2 : isIgnore field.1 = true
          · simp only [h2, if_true, Step.events, List.mem_singleton] at he
            rw [he]; exact hs _ _
          · simp only [h2, Bool.false_eq_true, if_false, Step.events_after,
              List.mem_append, List.mem_singleton] at he
            rcases he with h | h
            · rw [h]; exact hs _ _
            · exact visitField_all P hm hs hl env V walk l hval _ _ _ _ e h
  · simp only [hk, Bool.false_eq_true, if_false] at he
    exact hval _ _ _ e he

theorem Step.after_stop {σ : Type} (tr : List Event) (s : Step σ) (o : Outcome) (st : σ)
    (t : List Event) (h : s.after tr = .stop o st t) : ∃ t2, s = .stop o st t2 := by
  cases s with
  | next d s2 t2 => simp [Step.after] at h
  | stop o2 s2 t2 =>
    simp only [Step.after, Step.stop.injEq] at h
    exact ⟨t2, by rw [h.1, h.2.1]⟩

theorem setValue_stop_nil {σ : Type} (env : Env) (key : GoString) (dest : RNode)
    (sub : Walker) (r : Res σ) (o : Outcome) (st : σ) (t : List Event)
    (h : setValue env key dest sub r = .stop o st t) : o.node = none := by
  rcases r with ⟨out, s0, t0⟩
  cases out with
  | panicked => simp only [setValue, Step.stop.injEq] at h; rw [← h.1]; rfl
  | tooDeep => simp only [setValue, Step.stop.injEq] at h; rw [← h.1]; rfl
  | ret val err =>
    simp only [setValue] at h
    by_cases herr : err.isSome = true
    · simp only [herr, if_true, Step.stop.injEq] at h; rw [← h.1]; rfl
    · simp only [herr, Bool.false_eq_true, if_false] at h
      cases hfs : FieldSetter env.clears dest key val with
      | error e2 => simp only [hfs, Step.stop.injEq] at h; rw [← h.1]; rfl
      | ok d2 => simp [hfs] at h

theorem walkValue_stop_nil {σ : Type} (env : Env) (walk : Walker → σ → Res σ) (l : Walker)
    (key : GoString) (dest : RNode) (st : σ) (o : Outcome) (s2 : σ) (t : List Event)
    (h : walkValue env walk l key dest st = .stop o s2 t) : o.node = none := by
  unfold walkValue at h
  cases hfv : fieldValue env (some dest) key with
  | none => simp only [hfv, Step.stop.injEq] at h; rw [← h.1]; rfl
  | some p =>
    obtain ⟨fv, cs⟩ := p
    simp only [hfv] at h
    exact setValue_stop_nil _ _ _ _ _ _ _ _ h

theorem visitField_stop_nil {σ : Type} (env : Env) (V : Visitor σ)
    (walk : Walker → σ → Res σ) (l : Walker) (key : GoString) (field : MapNode)
    (dest : RNode) (st : σ) (o : Outcome) (s2 : σ) (t : List Event)
    (h : visitField env V walk l key field dest st = .stop o s2 t) : o.node = none := by
  unfold visitField at h
  by_cases h1 : isLeaf field = true
  · simp only [h1, if_true] at h
    by_cases h2 : (V.VisitLeaf (.scalar field.1) field.2
        (Join (l.Path ++ [key]) ".".toList) none st).1.2.isSome = true
    · simp only [h2, if_true, Step.stop.injEq] at h; rw [← h.1]; rfl
    · simp only [h2, Bool.false_eq_true, if_false] at h
      by_cases h3 : isBreakout field.1 = true
      · simp [h3] at h
      · simp only [h3, Bool.false_eq_true, if_false] at h
        obtain ⟨t2, ht2⟩ := Step.after_stop _ _ _ _ _ h
        exact walkValue_stop_nil _ _ _ _ _ _ _ _ _ ht2
  · simp only [h1, Bool.false_eq_true, if_false] at h
    exact walkValue_stop_nil _ _ _ _ _ _ _ _ _ h

theorem walkField_stop_nil {σ : Type} (env : Env) (V : Visitor σ)
    (walk : Walker → σ → Res σ) (l : Walker) (key : GoString) (dest : RNode) (st : σ)
    (o : Outcome) (s2 : σ) (t : List Event)
    (h : walkField env V walk l key dest st = .stop o s2 t) : o.node = none := by
  unfold walkField at h
  by_cases hk : l.VisitKeysAsScalars = true
  · simp only [hk, if_true] at h
    cases hf : dest.Field key with
    | none => simp [hf] at h
    | some field =>
      simp only [hf] at h
      by_cases h0 : IsEmpty (some (.scalar field.1)) = true
      · simp [h0] at h
      · simp only [h0, Bool.false_eq_true, if_false] at h
        by_cases h1 : (V.VisitScalar (some (.scalar field.1)) none st).1.2.isSome = true
        · simp only [h1, if_true, Step.stop.injEq] at h; rw [← h.1]; rfl
        · simp only [h1, Bool.false_eq_true, if_false] at h
          by_cases h2 : isIgnore field.1 = true
          · simp [h2] at h
          · simp only [h2, Bool.false_eq_true, if_false] at h
            obtain ⟨t2, ht2⟩ := Step.after_stop _ _ _ _ _ h
            exact visitField_stop_nil _ _ _ _ _ _ _ _ _ _ _ ht2
  · simp only [hk, Bool.false_eq_true, if_false] at h
    exact walkValue_stop_nil _ _ _ _ _ _ _ _ _ h

theorem walkFields_all {σ : Type} (P : Event → Prop) (hm : ∀ s sc, P (.visitMap s sc))
    (hs : ∀ s sc, P (.visitScalar s sc))
    (hl : ∀ k v p, P (.visitLeaf k v p none)) (env : Env)
    (V : Visitor σ) (walk : Walker → σ → Res σ)
    (l : Walker)
    (hval : ∀ key dest st, ∀ e ∈ (walkValue env walk l key dest st).events, P e) :
    ∀ (names : List GoString) (dest : RNode) (st : σ),
      ∀ e ∈ (walkFields env V walk l names dest st).trace, P e := by
  intro names
  induction names with
  | nil => intro dest st e he; simp [walkFields] at he
  | cons key rest ih =>
    intro dest st e he
    have hf := walkField_all P hm hs hl env V walk l hval key dest st
    unfold walkFields at he
    cases hs : walkField env V walk l key dest st with
    | next d2 s2 tr =>
      simp only [hs, Res.after, List.mem_append] at he
      rcases he with h | h
      · exact hf e (by rw [hs]; exact h)
      · exact ih d2 s2 e h
    | stop o s2 tr =>
      simp only [hs] at he
      exact hf e (by rw [hs]; exact he)

theorem walkMap_all {σ : Type} (P : Event → Prop) (hm : ∀ s sc, P (.visitMap s sc))
    (hs : ∀ s sc, P (.visitScalar s sc))
    (hl : ∀ k v p, P (.visitLeaf k v p none)) (env : Env)
    (V : Visitor σ) (walk : Walker → σ → Res σ)
    (l : Walker)
    (hval : ∀ key dest st, ∀ e ∈ (walkValue env walk l key dest st).events, P e)
    (st : σ) :
    ∀ e ∈ (walkMap env V walk l st).trace, P e := by
  intro e he
  unfold walkMap at he
  cases hd : (V.VisitMap l.Source l.Schema st).1.1 with
  | none =>
    simp only [hd, List.mem_singleton] at he
    rw [he]; exact hm _ _
  | some dest =>
    simp only [hd] at he
    by_cases herr : (V.VisitMap l.Source l.Schema st).1.2.isSome = true
    · simp only [herr, if_true, List.mem_singleton] at he
      rw [he]; exact hm _ _
    · simp only [herr, Bool.false_eq_true, if_false, Res.after, List.mem_append,
        List.mem_singleton] at he
      rcases he with h | h
      · rw [h]; exact hm _ _
      · exact walkFields_all P hm hs hl env V walk l hval _ _ _ e h

theorem consItem_events {σ : Type} (sub : Walker) (r : Res σ)
    (k : σ → (Outcome ⊕ List RNode) × σ × List Event) (e : Event)
    (he : e ∈ (consItem sub r k).2.2) :
    e = .walk sub r.trace ∨ e ∈ (k r.st).2.2 := by
  rcases r with ⟨out, s2, tr⟩
  cases out with
  | panicked =>
    simp only [consItem, List.mem_singleton] at he
    exact Or.inl he
  | tooDeep =>
    simp only [consItem, List.mem_singleton] at he
    exact Or.inl he
  | ret val err =>
    simp only [consItem] at he
    by_cases herr : err.isSome = true
    · simp only [herr, if_true, List.mem_singleton] at he
      exact Or.inl he
    · simp only [herr, Bool.false_eq_true, if_false] at he
      generalize k s2 = q at he ⊢
      rcases q with ⟨a, s3, tr2⟩
      cases a <;>
      · simp only [List.mem_cons] at he
        exact he

theorem walkItems_forall {σ : Type} (Q P : Event → Prop) (hP : OwnCalls Q P)
    (walk : Walker → σ → Res σ) (hwalk : ∀ sub st, ∀ e ∈ (walk sub st).trace, Q e)
    (l : Walker) (elemPath : List GoString → Nat → List GoString) :
    ∀ (items : List RNode) (i : Nat) (st : σ),
      ∀ e ∈ (walkItems walk l elemPath items i st).2.2, P e := by
  intro items
  induction items with
  | nil => intro i st e he; simp [walkItems] at he
  | cons x rest ih =>
    intro i st e he
    unfold walkItems at he
    rcases consItem_events _ _ _ e he with h | h
    · rw [h]; exact hP.walk _ _ (hwalk _ _)
    · exact ih _ _ e h

theorem walkSequence_forall {σ : Type} (Q P : Event → Prop) (hP : OwnCalls Q P)
    (V : Visitor σ) (walk : Walker → σ → Res σ)
    (hwalk : ∀ sub st, ∀ e ∈ (walk sub st).trace, Q e)
    (elemPath : List GoString → Nat → List GoString) (l : Walker) (st : σ) :
    ∀ e ∈ (walkSequence V walk elemPath l st).trace, P e := by
  intro e he
  unfold walkSequence at he
  cases hd : (V.VisitList l.Source l.Schema st).1.1 with
  | none =>
    simp only [hd, List.mem_singleton] at he
    rw [he]; exact hP.visitList _ _
  | some dest =>
    simp only [hd] at he
    by_cases herr : (V.VisitList l.Source l.Schema st).1.2.isSome = true
    · simp only [herr, if_true, List.mem_singleton] at he
      rw [he]; exact hP.visitList _ _
    · simp only [herr, Bool.false_eq_true, if_false] at he
      have hsingle : e ∈ [Event.visitList l.Source l.Schema] → P e := by
        intro h
        rw [List.mem_singleton.mp h]; exact hP.visitList _ _
      cases hsrc : l.Source with
      | none => simp only [hsrc] at he hsingle; exact hsingle he
      | some src =>
        cases src with
        | scalar d => simp only [hsrc] at he hsingle; exact hsingle he
        | mapping h c fs => simp only [hsrc] at he hsingle; exact hsingle he
        | sequence h c items =>
          simp only [hsrc] at he
          have hi := walkItems_forall Q P hP walk hwalk l elemPath items 0
            (V.VisitList (some (.sequence h c items)) l.Schema st).2
          generalize walkItems walk l elemPath items 0
            (V.VisitList (some (.sequence h c items)) l.Schema st).2 = q at he hi
          rcases q with ⟨a, s3, tr2⟩
          have hcons : e ∈ Event.visitList (some (.sequence h c items)) l.Schema :: tr2 →
              P e := by
            intro hm
            rcases List.mem_cons.mp hm with h1 | h1
            · rw [h1]; exact hP.visitList _ _
            · exact hi e h1
          cases a with
          | inl o => exact hcons he
          | inr vals =>
            cases dest <;> exact hcons he

theorem Walk_forall {σ : Type} (P : Event → Prop) (hP : OwnCalls P P) (env : Env)
    (V : Visitor σ) (elemPath : List GoString → Nat → List GoString) :
    ∀ (depth : Nat) (l : Walker) (st : σ),
      ∀ e ∈ (Walk env V elemPath depth l st).trace, P e := by
  intro depth
  induction depth with
  | zero => intro l st e he; simp [Walk] at he
  | succ n ih =>
    intro l st e he
    unfold Walk at he
    cases hsrc : l.Source with
    | none => simp [hsrc] at he
    | some src =>
      cases src with
      | scalar d =>
        simp only [hsrc, walkScalar, List.mem_singleton] at he
        rw [he]; exact hP.visitScalar _ _
      | mapping h c fs =>
        simp only [hsrc] at he
        exact walkMap_all P hP.visitMap hP.visitScalar hP.visitLeaf env V _ l
          (fun key dest st2 => walkValue_forall P P hP env _ ih l key dest st2) st e he
      | sequence h c items =>
        simp only [hsrc] at he
        exact walkSequence_forall P P hP V _ ih elemPath l st e he

theorem mem_leafSchemas (tr : List Event) (s : Option ResourceSchema)
    (h : s ∈ leafSchemas tr) : ∃ e ∈ tr, s ∈ e.leafSchemas := by
  induction tr with
  | nil => simp [leafSchemas] at h
  | cons x tl ih =>
    simp only [leafSchemas, List.mem_append] at h
    rcases h with h | h
    · exact ⟨x, List.mem_cons_self _ _, h⟩
    · obtain ⟨e, he, hs⟩ := ih h
      exact ⟨e, List.mem_cons_of_mem _ he, hs⟩

theorem ownCalls_leafSchemaNil : OwnCalls Event.leafSchemaNil Event.leafSchemaNil where
  visitMap := by intro _ _ s hs; simp [Event.leafSchemas] at hs
  visitScalar := by intro _ _ s hs; simp [Event.leafSchemas] at hs
  visitList := by intro _ _ s hs; simp [Event.leafSchemas] at hs
  visitLeaf := by intro _ _ _ s hs; simpa [Event.leafSchemas] using hs
  walk := by
    intro sub calls h s hs
    simp only [Event.leafSchemas] at hs
    obtain ⟨e, he, hs2⟩ := mem_leafSchemas calls s hs
    exact h e he s hs2
  setField := by intro _ _ s hs; simp [Event.leafSchemas] at hs

/-- C6 fails as stated: for the field `a: 1`, whose key has no head comment and for
which a schema with a description is resolved, VisitLeaf receives a nil schema; the
resolved schema goes to the walker of the value instead. -/
theorem visitLeaf_schema_not_passed :
    (key "a").HeadComment = [] ∧
    (fieldValue describedEnv (some (.mapping [] [] [(key "a", str "1")]))
      "a".toList).map (fun p => p.2)
      = some (some ⟨some ⟨"from the schema".toList, [], []⟩⟩) ∧
    leafSchemas (walkMap describedEnv noopVisitor (Walk describedEnv noopVisitor indexPath 3)
      (rootWalker (.mapping [] [] [(key "a", str "1")])) ()).trace = [none] ∧
    walkSchemas (walkMap describedEnv noopVisitor (Walk describedEnv noopVisitor indexPath 3)
      (rootWalker (.mapping [] [] [(key "a", str "1")])) ()).trace
      = [some ⟨some ⟨"from the schema".toList, [], []⟩⟩] := by
  decide

theorem ownCalls_ownLeafSchemaNil : OwnCalls (fun _ => True) Event.ownLeafSchemaNil where
  visitMap := fun _ _ => trivial
  visitScalar := fun _ _ => trivial
  visitList := fun _ _ => trivial
  visitLeaf := fun _ _ _ => rfl
  walk := fun _ _ _ => trivial
  setField := fun _ _ => trivial

theorem ownLeafSchemas_nil (tr : List Event) (h : ∀ e ∈ tr, e.ownLeafSchemaNil) :
    ∀ s ∈ ownLeafSchemas tr, s = none := by
  induction tr with
  | nil => intro s hs; simp [ownLeafSchemas] at hs
  | cons x tl ih =>
    have hx := h x (List.mem_cons_self _ _)
    have htl := ih (fun e he => h e (List.mem_cons_of_mem _ he))
    intro s hs
    cases x with
    | visitLeaf k v p sc =>
      simp only [ownLeafSchemas, List.mem_cons] at hs
      rcases hs with h1 | h1
      · rw [h1]; exact hx
      · exact htl s h1
    | visitMap a b => exact htl s hs
    | visitScalar a b => exact htl s hs
    | visitList a b => exact htl s hs
    | walk a b => exact htl s hs
    | setField a b => exact htl s hs

theorem walkValue_walkFrom {σ : Type} (env : Env) (walk : Walker → σ → Res σ) (l : Walker)
    (key : GoString) (dest : RNode) (st : σ) :
    ∀ e ∈ (walkValue env walk l key dest st).events, e.walkFrom env l := by
  intro e he
  unfold walkValue at he
  cases hfv : fieldValue env (some dest) key with
  | none => simp [hfv, Step.events] at he
  | some p =>
    obtain ⟨fv, cs⟩ := p
    simp only [hfv] at he
    rcases setValue_events _ _ _ _ _ e he with h | ⟨v, h⟩
    · rw [h]
      exact ⟨key, dest, fv, cs, hfv, rfl, rfl, rfl⟩
    · rw [h]; trivial

/-- C6, as the code has it: every VisitLeaf call `walkMap` makes is made with a nil
schema, whatever schema is resolved for the field and whatever the key's comments are,
and so is every VisitLeaf call of a whole walk: no description reaches the leaf visit
from a schema. The schema resolved for a field (the one read from its comments, else the
field schema of the parent schema) goes to the walker of the field's value, in every
recursive walk `walkMap` makes. -/
theorem visitLeaf_schema_nil {σ : Type} (env : Env) (V : Visitor σ)
    (walk : Walker → σ → Res σ) (elemPath : List GoString → Nat → List GoString)
    (depth : Nat) (l : Walker) (st : σ) :
    (∀ s ∈ ownLeafSchemas (walkMap env V walk l st).trace, s = none) ∧
    (∀ s ∈ leafSchemas (Walk env V elemPath depth l st).trace, s = none) ∧
    (∀ e ∈ (walkMap env V walk l st).trace, e.walkFrom env l) := by
  refine ⟨ownLeafSchemas_nil _ (walkMap_all Event.ownLeafSchemaNil (fun _ _ => trivial)
    (fun _ _ => trivial) (fun _ _ _ => rfl) env V walk l
    (fun key dest st2 => walkValue_forall (fun _ => True) _ ownCalls_ownLeafSchemaNil env
      walk (fun _ _ _ _ => trivial) l key dest st2) st), ?_,
    walkMap_all (Event.walkFrom env l) (fun _ _ => trivial) (fun _ _ => trivial)
      (fun _ _ _ => trivial) env V walk l (walkValue_walkFrom env walk l) st⟩
  intro s hs
  obtain ⟨e, he, hse⟩ := mem_leafSchemas _ s hs
  exact Walk_forall _ ownCalls_leafSchemaNil env V elemPath depth l st e he s hse

/-! ## map.go: ignored keys -/

theorem Join_snoc (sep : GoString) (path : List GoString) :
    ∃ pre : GoString, ∀ a, Join (path ++ [a]) sep = pre ++ a := by
  induction path with
  | nil => exact ⟨[], fun a => by simp [Join, List.intercalate]⟩
  | cons x xs ih =>
    obtain ⟨pre, hpre⟩ := ih
    refine ⟨x ++ sep ++ pre, fun a => ?_⟩
    have h := hpre a
    cases hxs : xs ++ [a] with
    | nil => simp at hxs
    | cons y ys =>
      rw [hxs] at h
      simp only [Join, List.intercalate, List.cons_append, hxs, List.intersperse,
        List.flatten_cons, List.append_assoc] at h ⊢
      rw [h]

theorem Join_snoc_inj (sep : GoString) (path : List GoString) (a b : GoString)
    (h : Join (path ++ [a]) sep = Join (path ++ [b]) sep) : a = b := by
  obtain ⟨pre, hpre⟩ := Join_snoc sep path
  rw [hpre a, hpre b] at h
  exact List.append_cancel_left h

theorem find_clearFirst (name key : GoString) (hne : name ≠ key) (fs : List MapNode) :
    (clearFirst name fs).find? (fun f => decide (f.1.Value = key))
      = fs.find? (fun f => decide (f.1.Value = key)) := by
  induction fs with
  | nil => rfl
  | cons f tl ih =>
    unfold clearFirst at ih ⊢
    by_cases h1 : f.1.Value = name
    · have h2 : ¬ f.1.Value = key := fun h => hne (h1.symm.trans h)
      simp [List.eraseP_cons, h1, List.find?_cons, hne]
    · by_cases h2 : f.1.Value = key
      · have h3 : ¬ key = name := fun h => hne h.symm
        simp [List.eraseP_cons, List.find?_cons, h2, h3]
      · simp [List.eraseP_cons, h1, List.find?_cons, h2, ih]

theorem find_setFirst (name key : GoString) (hne : name ≠ key) (v : RNode)
    (fs : List MapNode) :
    (setFirst name v fs).find? (fun f => decide (f.1.Value = key))
      = fs.find? (fun f => decide (f.1.Value = key)) := by
  induction fs with
  | nil => rfl
  | cons f tl ih =>
    by_cases h1 : f.1.Value = name
    · simp [setFirst, h1, List.find?_cons, hne]
    · by_cases h2 : f.1.Value = key
      · have h3 : ¬ key = name := fun h => hne h.symm
        simp [setFirst, List.find?_cons, h2, h3]
      · simp [setFirst, h1, List.find?_cons, h2, ih]

theorem FieldSetter_Field_other (clears : RNode → Bool) (dest d2 : RNode)
    (name key : GoString) (val : Option RNode) (hne : name ≠ key)
    (h : FieldSetter clears dest name val = .ok d2) : d2.Field key = dest.Field key := by
  unfold FieldSetter at h
  by_cases hn : name = []
  · simp only [hn, if_true] at h
    cases dest with
    | scalar d => simp only [Except.ok.injEq] at h; rw [← h]; rfl
    | mapping hd c fs => simp at h
    | sequence hd c is => simp at h
  · simp only [hn, if_false] at h
    cases dest with
    | scalar d => simp at h
    | sequence hd c is => simp at h
    | mapping hd c fs =>
      cases val with
      | none =>
        simp only [Except.ok.injEq] at h; rw [← h]
        exact find_clearFirst name key hne fs
      | some v =>
        simp only at h
        by_cases hc : clears v = true
        · simp only [hc, if_true, Except.ok.injEq] at h; rw [← h]
          exact find_clearFirst name key hne fs
        · simp only [hc, Bool.false_eq_true, if_false] at h
          by_cases hfound : (fs.find? (fun f => decide (f.1.Value = name))).isSome = true
          · simp only [hfound, if_true, Except.ok.injEq] at h; rw [← h]
            exact find_setFirst name key hne v fs
          · simp only [hfound, Bool.false_eq_true, if_false, Except.ok.injEq] at h
            rw [← h]
            simp [RNode.Field, List.find?_append, hne]

theorem Step.keeps_after {σ : Type} (l : Walker) (key : GoString) (dest : RNode)
    (s : Step σ) (tr : List Event) (htr : ∀ e ∈ tr, ¬ e.touches l key)
    (h : s.keeps l key dest) : (s.after tr).keeps l key dest := by
  constructor
  · intro e he
    rw [Step.events_after, List.mem_append] at he
    rcases he with h1 | h1
    · exact htr e h1
    · exact h.1 e h1
  · intro d st t heq
    cases s with
    | next d2 s2 t2 =>
      simp only [Step.after, Step.next.injEq] at heq
      exact heq.1 ▸ h.2 d2 s2 t2 rfl
    | stop o s2 t2 => simp [Step.after] at heq

theorem setValue_keeps {σ : Type} (env : Env) (l : Walker) (name key : GoString)
    (hne : name ≠ key) (dest : RNode) (sub : Walker) (hsub : sub.Path = l.Path ++ [name])
    (r : Res σ) : (setValue env name dest sub r).keeps l key dest := by
  constructor
  · intro e he
    rcases setValue_events _ _ _ _ _ e he with h | ⟨v, h⟩
    · rw [h]
      simp only [Event.touches, hsub]
      intro heq
      have := List.append_cancel_left heq
      simp only [List.cons.injEq, and_true] at this
      exact hne this
    · rw [h]; exact hne
  · intro d st tr heq
    rcases r with ⟨out, s0, t0⟩
    cases out with
    | panicked => simp [setValue] at heq
    | tooDeep => simp [setValue] at heq
    | ret val err =>
      simp only [setValue] at heq
      by_cases herr : err.isSome = true
      · simp [herr] at heq
      · simp only [herr, Bool.false_eq_true, if_false] at heq
        cases hfs : FieldSetter env.clears dest name val with
        | error e2 => simp [hfs] at heq
        | ok d2 =>
          simp only [hfs, Step.next.injEq] at heq
          rw [← heq.1]
          exact FieldSetter_Field_other _ _ _ _ _ _ hne hfs

theorem walkValue_keeps {σ : Type} (env : Env) (walk : Walker → σ → Res σ) (l : Walker)
    (name key : GoString) (hne : name ≠ key) (dest : RNode) (st : σ) :
    (walkValue env walk l name dest st).keeps l key dest := by
  unfold walkValue
  cases hfv : fieldValue env (some dest) name with
  | none =>
    exact ⟨by intro e he; simp [Step.events] at he, by intro d s t h; simp at h⟩
  | some p =>
    obtain ⟨fv, cs⟩ := p
    exact setValue_keeps env l name key hne dest _ rfl _

theorem visitField_keeps {σ : Type} (env : Env) (V : Visitor σ)
    (walk : Walker → σ → Res σ) (l : Walker) (name key : GoString) (hne : name ≠ key)
    (field : MapNode) (dest : RNode) (st : σ) :
    (visitField env V walk l name field dest st).keeps l key dest := by
  have hleaf : ∀ e ∈ [Event.visitLeaf (.scalar field.1) field.2
      (Join (l.Path ++ [name]) ".".toList) none], ¬ e.touches l key := by
    intro e he
    rw [List.mem_singleton.mp he]
    intro ht
    exact hne (Join_snoc_inj _ _ _ _ ht)
  unfold visitField
  by_cases h1 : isLeaf field = true
  · simp only [h1, if_true]
    by_cases h2 : (V.VisitLeaf (.scalar field.1) field.2
        (Join (l.Path ++ [name]) ".".toList) none st).1.2.isSome = true
    · simp only [h2, if_true]
      exact ⟨hleaf, by intro d s t h; simp at h⟩
    · simp only [h2, Bool.false_eq_true, if_false]
      by_cases h3 : isBreakout field.1 = true
      · simp only [h3, if_true]
        refine ⟨hleaf, ?_⟩
        intro d s t h
        simp only [Step.next.injEq] at h
        rw [h.1]
      · simp only [h3, Bool.false_eq_true, if_false]
        exact Step.keeps_after l key dest _ _ hleaf (walkValue_keeps env walk l name key hne _ _)
  · simp only [h1, Bool.false_eq_true, if_false]
    exact walkValue_keeps env walk l name key hne _ _

theorem walkField_keeps_other {σ : Type} (env : Env) (V : Visitor σ)
    (walk : Walker → σ → Res σ) (l : Walker) (name key : GoString) (hne : name ≠ key)
    (dest : RNode) (st : σ) : (walkField env V walk l name dest st).keeps l key dest := by
  have hnil : (Step.next dest st [] : Step σ).keeps l key dest :=
    ⟨by intro e he; simp [Step.events] at he,
      by intro d s t h; simp only [Step.next.injEq] at h; rw [h.1]⟩
  unfold walkField
  by_cases hk : l.VisitKeysAsScalars = true
  · simp only [hk, if_true]
    cases hf : dest.Field name with
    | none => exact hnil
    | some field =>
      simp only
      have hsc : ∀ e ∈ [Event.visitScalar (some (.scalar field.1)) none],
          ¬ e.touches l key := by
        intro e he; rw [List.mem_singleton.mp he]; exact fun h => h
      by_cases h0 : IsEmpty (some (.scalar field.1)) = true
      · simp only [h0, if_true]; exact hnil
      · simp only [h0, Bool.false_eq_true, if_false]
        by_cases h1 : (V.VisitScalar (some (.scalar field.1)) none st).1.2.isSome = true
        · simp only [h1, if_true]
          exact ⟨hsc, by intro d s t h; simp at h⟩
        · simp only [h1, Bool.false_eq_true, if_false]
          by_cases h2 : isIgnore field.1 = true
          · simp only [h2, if_true]
            exact ⟨hsc, by intro d s t h; simp only [Step.next.injEq] at h; rw [h.1]⟩
          · simp only [h2, Bool.false_eq_true, if_false]
            exact Step.keeps_after l key dest _ _ hsc
              (visitField_keeps env V walk l name key hne field dest _)
  · simp only [hk, Bool.false_eq_true, if_false]
    exact walkValue_keeps env walk l name key hne _ _

theorem walkField_ignored {σ : Type} (env : Env) (V : Visitor σ)
    (walk : Walker → σ → Res σ) (l : Walker) (key : GoString) (dest : RNode) (st : σ)
    (field : MapNode) (hk : l.VisitKeysAsScalars = true) (hf : dest.Field key = some field)
    (hig : isIgnore field.1 = true) :
    (∀ e ∈ (walkField env V walk l key dest st).events,
      e = .visitScalar (some (.scalar field.1)) none) ∧
    (∀ d s t, walkField env V walk l key dest st = .next d s t → d = dest) := by
  unfold walkField
  simp only [hk, if_true, hf]
  by_cases h0 : IsEmpty (some (.scalar field.1)) = true
  · simp only [h0, if_true]
    exact ⟨by intro e he; simp [Step.events] at he,
      by intro d s t h; simp only [Step.next.injEq] at h; exact h.1.symm⟩
  · simp only [h0, Bool.false_eq_true, if_false]
    by_cases h1 : (V.VisitScalar (some (.scalar field.1)) none st).1.2.isSome = true
    · simp only [h1, if_true]
      exact ⟨by intro e he; simpa [Step.events] using he, by intro d s t h; simp at h⟩
    · simp only [h1, Bool.false_eq_true, if_false, hig, if_true]
      exact ⟨by intro e he; simpa [Step.events] using he,
        by intro d s t h; simp only [Step.next.injEq] at h; exact h.1.symm⟩

theorem walkFields_ignored {σ : Type} (env : Env) (V : Visitor σ)
    (walk : Walker → σ → Res σ) (l : Walker) (key : GoString) (field : MapNode)
    (hk : l.VisitKeysAsScalars = true) (hig : isIgnore field.1 = true) :
    ∀ (names : List GoString) (dest : RNode) (st : σ), dest.Field key = some field →
      (∀ e ∈ (walkFields env V walk l names dest st).trace, ¬ e.touches l key) ∧
      (∀ d err, (walkFields env V walk l names dest st).out = .ret (some d) err →
        d.Field key = some field) := by
  intro names
  induction names with
  | nil =>
    intro dest st hf
    refine ⟨by intro e he; simp [walkFields] at he, ?_⟩
    intro d err h
    simp only [walkFields, Outcome.ret.injEq, Option.some.injEq] at h
    rw [← h.1]; exact hf
  | cons name rest ih =>
    intro dest st hf
    have hkeep : (walkField env V walk l name dest st).keeps l key dest := by
      by_cases hne : name = key
      · subst hne
        obtain ⟨h1, h2⟩ := walkField_ignored env V walk l name dest st field hk hf hig
        refine ⟨?_, ?_⟩
        · intro e he; rw [h1 e he]; exact fun h => h
        · intro d s t h; rw [h2 d s t h]
      · exact walkField_keeps_other env V walk l name key hne dest st
    unfold walkFields
    cases hs : walkField env V walk l name dest st with
    | next d2 s2 tr =>
      rw [hs] at hkeep
      have hf2 : d2.Field key = some field := by rw [hkeep.2 d2 s2 tr rfl]; exact hf
      obtain ⟨i1, i2⟩ := ih d2 s2 hf2
      refine ⟨?_, ?_⟩
      · intro e he
        simp only [Res.after, List.mem_append] at he
        rcases he with h | h
        · exact hkeep.1 e h
        · exact i1 e h
      · intro d err h
        exact i2 d err h
    | stop o s2 tr =>
      rw [hs] at hkeep
      refine ⟨fun e he => hkeep.1 e he, ?_⟩
      intro d err h
      simp only at h
      have hst := walkField_stop_nil env V walk l name dest st o s2 tr hs
      rw [h] at hst
      simp [Outcome.node] at hst

/-- C1 fails as stated: under a no-op Visitor the map `a: 1` with `# +doc-gen:ignore` on
the key `a`, followed by `b: 2`, is walked without a leaf visit for `a`, but the
destination `walkMap` returns still has the field `a`. And when the ignored key `a` comes
after another field named `a`, every lookup finds that first field: VisitLeaf is called
at the path `a`, twice, with the value of the first field. -/
theorem ignored_field_stays :
    isIgnore (keyLine "a" "# +doc-gen:ignore") = true ∧
    leafPaths (walkMap plainEnv noopVisitor (Walk plainEnv noopVisitor indexPath 3)
      (rootWalker (.mapping [] [] [(keyLine "a" "# +doc-gen:ignore", str "1"),
        (key "b", str "2")])) ()).trace = ["b".toList] ∧
    fieldNames (walkMap plainEnv noopVisitor (Walk plainEnv noopVisitor indexPath 3)
      (rootWalker (.mapping [] [] [(keyLine "a" "# +doc-gen:ignore", str "1"),
        (key "b", str "2")])) ()).dest = ["a".toList, "b".toList] ∧
    leafPaths (walkMap plainEnv noopVisitor (Walk plainEnv noopVisitor indexPath 3)
      (rootWalker (.mapping [] [] [(key "a", str "1"),
        (keyLine "a" "# +doc-gen:ignore", str "2")])) ()).trace = ["a".toList, "a".toList] ∧
    leafValues (walkMap plainEnv noopVisitor (Walk plainEnv noopVisitor indexPath 3)
      (rootWalker (.mapping [] [] [(key "a", str "1"),
        (keyLine "a" "# +doc-gen:ignore", str "2")])) ()).trace
      = ["1".toList, "1".toList] := by
  decide

/-- C1, as the code has it: when keys are visited as scalars and the field `key` of the
map VisitMap returned (the first field of that name, the one `Field` finds) carries the
ignore directive on the line or head comment of its key, `walkMap` makes no VisitLeaf
call at the path of the field, no recursive walk of its value and no FieldSetter call
for it, and a destination it returns still holds the field as it was. -/
theorem walkMap_ignore {σ : Type} (env : Env) (V : Visitor σ) (walk : Walker → σ → Res σ)
    (l : Walker) (st : σ) (dest0 : RNode) (key : GoString) (field : MapNode)
    (hk : l.VisitKeysAsScalars = true)
    (hv : (V.VisitMap l.Source l.Schema st).1.1 = some dest0)
    (hf : dest0.Field key = some field) (hig : isIgnore field.1 = true) :
    (∀ e ∈ (walkMap env V walk l st).trace, ¬ e.touches l key) ∧
    (∀ d err, (walkMap env V walk l st).out = .ret (some d) err →
      d.Field key = some field) := by
  unfold walkMap
  simp only [hv]
  by_cases herr : (V.VisitMap l.Source l.Schema st).1.2.isSome = true
  · simp only [herr, if_true]
    refine ⟨?_, by intro d err h; simp at h⟩
    intro e he
    rw [List.mem_singleton.mp he]
    exact fun h => h
  · simp only [herr, Bool.false_eq_true, if_false]
    obtain ⟨h1, h2⟩ := walkFields_ignored env V walk l key field hk hig
      (fieldNames (some dest0)) dest0 (V.VisitMap l.Source l.Schema st).2 hf
    refine ⟨?_, fun d err h => h2 d err h⟩
    intro e he
    simp only [Res.after, List.mem_append, List.mem_singleton] at he
    rcases he with h | h
    · rw [h]; exact fun h => h
    · exact h1 e h

theorem walkMap_ignore_witness :
    (rootWalker (.mapping [] [] [(keyLine "a" "# +doc-gen:ignore", str "1"),
      (key "b", str "2")])).VisitKeysAsScalars = true ∧
    isIgnore (keyLine "a" "# +doc-gen:ignore", str "1").1 = true ∧
    (∀ d err, (walkMap plainEnv noopVisitor (Walk plainEnv noopVisitor indexPath 3)
      (rootWalker (.mapping [] [] [(keyLine "a" "# +doc-gen:ignore", str "1"),
        (key "b", str "2")])) ()).out = .ret (some d) err →
      d.Field "a".toList = some (keyLine "a" "# +doc-gen:ignore", str "1")) :=
  ⟨rfl, by decide,
    (walkMap_ignore plainEnv noopVisitor (Walk plainEnv noopVisitor indexPath 3)
      (rootWalker (.mapping [] [] [(keyLine "a" "# +doc-gen:ignore", str "1"),
        (key "b", str "2")])) ()
      (.mapping [] [] [(keyLine "a" "# +doc-gen:ignore", str "1"), (key "b", str "2")])
      "a".toList (keyLine "a" "# +doc-gen:ignore", str "1") rfl rfl rfl (by decide)).2⟩

/-! ## map.go: break -/

theorem walkField_break_pass {σ : Type} (env : Env) (V : Visitor σ)
    (walk : Walker → σ → Res σ) (l : Walker) (key : GoString) (dest : RNode) (st : σ)
    (field : MapNode) (hk : l.VisitKeysAsScalars = true) (hf : dest.Field key = some field)
    (hig : isIgnore field.1 = false) (hb : isBreakout field.1 = true) :
    (walkField env V walk l key dest st = .next dest st [] ∧
      IsEmpty (some (.scalar field.1)) = true) ∨
    (∃ o s, walkField env V walk l key dest st
      = .stop o s [.visitScalar (some (.scalar field.1)) none]) ∨
    (∃ o s, walkField env V walk l key dest st
      = .stop o s [.visitScalar (some (.scalar field.1)) none,
          .visitLeaf (.scalar field.1) field.2 (Join (l.Path ++ [key]) ".".toList) none]) ∨
    (∃ s, walkField env V walk l key dest st
      = .next dest s [.visitScalar (some (.scalar field.1)) none,
          .visitLeaf (.scalar field.1) field.2 (Join (l.Path ++ [key]) ".".toList) none]) := by
  unfold walkField
  simp only [hk, if_true, hf]
  by_cases h0 : IsEmpty (some (.scalar field.1)) = true
  · rw [if_pos h0]
    exact Or.inl ⟨rfl, h0⟩
  · rw [if_neg h0]
    by_cases h1 : (V.VisitScalar (some (.scalar field.1)) none st).1.2.isSome = true
    · simp only [h1, if_true]
      exact Or.inr (Or.inl ⟨_, _, rfl⟩)
    · simp only [h1, Bool.false_eq_true, if_false, hig, visitField, isLeaf, hb,
        Bool.or_true, if_true]
      by_cases h2 : (V.VisitLeaf (.scalar field.1) field.2
          (Join (l.Path ++ [key]) ".".toList) none
          (V.VisitScalar (some (.scalar field.1)) none st).2).1.2.isSome = true
      · simp only [h2, if_true, Step.after]
        exact Or.inr (Or.inr (Or.inl ⟨_, _, rfl⟩))
      · simp only [h2, Bool.false_eq_true, if_false, Step.after]
        exact Or.inr (Or.inr (Or.inr ⟨_, rfl⟩))

theorem touches_of_descends (l : Walker) (key : GoString) (e : Event)
    (h : e.descends l key) : e.touches l key := by
  cases e <;> first | exact h | exact h.elim

theorem touches_of_leafAt (l : Walker) (key : GoString) (e : Event)
    (h : e.leafAt (Join (l.Path ++ [key]) ".".toList) = true) : e.touches l key := by
  cases e with
  | visitLeaf k v p s => simpa [Event.leafAt, Event.touches] using h
  | visitMap a b => simp [Event.leafAt] at h
  | visitScalar a b => simp [Event.leafAt] at h
  | visitList a b => simp [Event.leafAt] at h
  | walk a b => simp [Event.leafAt] at h
  | setField a b => simp [Event.leafAt] at h

theorem countP_leafAt_untouched (l : Walker) (key : GoString) (tr : List Event)
    (h : ∀ e ∈ tr, ¬ e.touches l key) :
    tr.countP (Event.leafAt (Join (l.Path ++ [key]) ".".toList)) = 0 := by
  rw [List.countP_eq_zero]
  intro e he hl
  exact h e he (touches_of_leafAt l key e hl)

theorem walkFields_break {σ : Type} (env : Env) (V : Visitor σ)
    (walk : Walker → σ → Res σ) (l : Walker) (key : GoString) (field : MapNode)
    (hk : l.VisitKeysAsScalars = true) (hig : isIgnore field.1 = false)
    (hb : isBreakout field.1 = true) :
    ∀ (names : List GoString) (dest : RNode) (st : σ), dest.Field key = some field →
      (∀ e ∈ (walkFields env V walk l names dest st).trace, ¬ e.descends l key) ∧
      (∀ e ∈ (walkFields env V walk l names dest st).trace,
        e.leafAt (Join (l.Path ++ [key]) ".".toList) = true →
        e = .visitLeaf (.scalar field.1) field.2 (Join (l.Path ++ [key]) ".".toList) none) ∧
      (walkFields env V walk l names dest st).trace.countP
        (Event.leafAt (Join (l.Path ++ [key]) ".".toList)) ≤ names.count key ∧
      (IsEmpty (some (.scalar field.1)) = false → ∀ d err,
        (walkFields env V walk l names dest st).out = .ret (some d) err →
        (walkFields env V walk l names dest st).trace.countP
          (Event.leafAt (Join (l.Path ++ [key]) ".".toList)) = names.count key) ∧
      (∀ d err, (walkFields env V walk l names dest st).out = .ret (some d) err →
        d.Field key = some field) := by
  intro names
  induction names with
  | nil =>
    intro dest st hf
    refine ⟨by intro e he; simp [walkFields] at he, by intro e he; simp [walkFields] at he,
      by simp [walkFields], by intro _ d err _; simp [walkFields], ?_⟩
    intro d err h
    simp only [walkFields, Outcome.ret.injEq, Option.some.injEq] at h
    rw [← h.1]; exact hf
  | cons name rest ih =>
    intro dest st hf
    by_cases hne : name = key
    · subst hne
      have hstop : ∀ (o : Outcome) s t, walkField env V walk l name dest st = .stop o s t →
          ∀ d err, o ≠ .ret (some d) err := by
        intro o s t h d err ho
        have := walkField_stop_nil env V walk l name dest st o s t h
        rw [ho] at this
        simp [Outcome.node] at this
      rcases walkField_break_pass env V walk l name dest st field hk hf hig hb with
        ⟨h, h0⟩ | ⟨o, s, h⟩ | ⟨o, s, h⟩ | ⟨s, h⟩
      · obtain ⟨i1, i2, i3, _, i5⟩ := ih dest st hf
        simp only [walkFields, h, Res.after, List.nil_append]
        refine ⟨i1, i2, le_trans i3 (by simp), ?_, i5⟩
        intro hno; rw [h0] at hno; exact absurd hno (by simp)
      · simp only [walkFields, h]
        refine ⟨by intro e he; simp at he; rw [he]; exact fun x => x,
          by intro e he hl; simp at he; rw [he] at hl; simp [Event.leafAt] at hl,
          by simp [Event.leafAt], ?_, ?_⟩
        · intro _ d err ho; exact absurd ho (hstop o s _ h d err)
        · intro d err ho; exact absurd ho (hstop o s _ h d err)
      · simp only [walkFields, h]
        refine ⟨?_, ?_, by simp [Event.leafAt, List.countP_cons], ?_, ?_⟩
        · intro e he
          simp only [List.mem_cons, List.mem_singleton, List.not_mem_nil, or_false] at he
          rcases he with rfl | rfl <;> exact fun x => x
        · intro e he hl
          simp only [List.mem_cons, List.mem_singleton, List.not_mem_nil, or_false] at he
          rcases he with rfl | rfl
          · simp [Event.leafAt] at hl
          · rfl
        · intro _ d err ho; exact absurd ho (hstop o s _ h d err)
        · intro d err ho; exact absurd ho (hstop o s _ h d err)
      · obtain ⟨i1, i2, i3, i4, i5⟩ := ih dest s hf
        simp only [walkFields, h, Res.after]
        refine ⟨?_, ?_, ?_, ?_, i5⟩
        · intro e he
          simp only [List.mem_append, List.mem_cons, List.mem_singleton, List.not_mem_nil,
            or_false] at he
          rcases he with (rfl | rfl) | he
          · exact fun x => x
          · exact fun x => x
          · exact i1 e he
        · intro e he hl
          simp only [List.mem_append, List.mem_cons, List.mem_singleton, List.not_mem_nil,
            or_false] at he
          rcases he with (rfl | rfl) | he
          · simp [Event.leafAt] at hl
          · rfl
          · exact i2 e he hl
        · rw [List.countP_append, List.count_cons_self]
          have : [Event.visitScalar (some (.scalar field.1)) none,
              Event.visitLeaf (.scalar field.1) field.2
                (Join (l.Path ++ [name]) ".".toList) none].countP
              (Event.leafAt (Join (l.Path ++ [name]) ".".toList)) = 1 := by
            simp [Event.leafAt, List.countP_cons]
          omega
        · intro h0 d err ho
          rw [List.countP_append, List.count_cons_self, i4 h0 d err ho]
          have : [Event.visitScalar (some (.scalar field.1)) none,
              Event.visitLeaf (.scalar field.1) field.2
                (Join (l.Path ++ [name]) ".".toList) none].countP
              (Event.leafAt (Join (l.Path ++ [name]) ".".toList)) = 1 := by
            simp [Event.leafAt, List.countP_cons]
          omega
    · have hkeep := walkField_keeps_other env V walk l name key hne dest st
      have hcount : List.count key (name :: rest) = List.count key rest :=
        List.count_cons_of_ne (fun h => hne h.symm) rest
      unfold walkFields
      cases hs : walkField env V walk l name dest st with
      | next d2 s2 tr =>
        rw [hs] at hkeep
        have hf2 : d2.Field key = some field := by rw [hkeep.2 d2 s2 tr rfl]; exact hf
        have hz := countP_leafAt_untouched l key tr hkeep.1
        obtain ⟨i1, i2, i3, i4, i5⟩ := ih d2 s2 hf2
        simp only [Res.after]
        refine ⟨?_, ?_, ?_, ?_, i5⟩
        · intro e he
          rcases List.mem_append.mp he with h | h
          · exact fun hd => hkeep.1 e h (touches_of_descends l key e hd)
          · exact i1 e h
        · intro e he hl
          rcases List.mem_append.mp he with h | h
          · exact absurd (touches_of_leafAt l key e hl) (hkeep.1 e h)
          · exact i2 e h hl
        · rw [List.countP_append, hz, hcount]; omega
        · intro h0 d err ho
          rw [List.countP_append, hz, hcount, i4 h0 d err ho]; omega
      | stop o s2 tr =>
        rw [hs] at hkeep
        have hz := countP_leafAt_untouched l key tr hkeep.1
        have hno : ∀ d err, o ≠ .ret (some d) err := by
          intro d err ho
          have := walkField_stop_nil env V walk l name dest st o s2 tr hs
          rw [ho] at this
          simp [Outcome.node] at this
        refine ⟨?_, ?_, ?_, ?_, ?_⟩
        · intro e he
          exact fun hd => hkeep.1 e he (touches_of_descends l key e hd)
        · intro e he hl
          exact absurd (touches_of_leafAt l key e hl) (hkeep.1 e he)
        · simp only [hz]; omega
        · intro _ d err ho; exact absurd ho (hno d err)
        · intro d err ho; exact absurd ho (hno d err)

/-- C2, as the code has it: when keys are visited as scalars and the field `key` of the map
VisitMap returned (the first field of that name, the one `Field` finds) is not ignored
and has the break directive as line comment, `walkMap` never walks the value of the field
and never applies a FieldSetter for it, whatever kind the value has; every VisitLeaf call
at the path `l.Path` followed by the key joined with "." has the key, the value and a nil
schema; there are at most as many such calls as the name occurs among the field names;
and when the key is not empty and `walkMap` returns a destination there are exactly that
many, one for a name that occurs once, and the destination still holds the field. -/
theorem walkMap_break {σ : Type} (env : Env) (V : Visitor σ) (walk : Walker → σ → Res σ)
    (l : Walker) (st : σ) (dest0 : RNode) (key : GoString) (field : MapNode)
    (hk : l.VisitKeysAsScalars = true)
    (hv : (V.VisitMap l.Source l.Schema st).1.1 = some dest0)
    (hf : dest0.Field key = some field) (hig : isIgnore field.1 = false)
    (hb : isBreakout field.1 = true) :
    (∀ e ∈ (walkMap env V walk l st).trace, ¬ e.descends l key) ∧
    (∀ e ∈ (walkMap env V walk l st).trace,
      e.leafAt (Join (l.Path ++ [key]) ".".toList) = true →
      e = .visitLeaf (.scalar field.1) field.2 (Join (l.Path ++ [key]) ".".toList) none) ∧
    (walkMap env V walk l st).trace.countP
      (Event.leafAt (Join (l.Path ++ [key]) ".".toList))
      ≤ (fieldNames (some dest0)).count key ∧
    (IsEmpty (some (.scalar field.1)) = false → ∀ d err,
      (walkMap env V walk l st).out = .ret (some d) err →
      (walkMap env V walk l st).trace.countP
        (Event.leafAt (Join (l.Path ++ [key]) ".".toList))
        = (fieldNames (some dest0)).count key) ∧
    (∀ d err, (walkMap env V walk l st).out = .ret (some d) err →
      d.Field key = some field) := by
  unfold walkMap
  simp only [hv]
  by_cases herr : (V.VisitMap l.Source l.Schema st).1.2.isSome = true
  · simp only [herr, if_true]
    refine ⟨?_, ?_, by simp [Event.leafAt], by intro _ d err h; simp at h,
      by intro d err h; simp at h⟩
    · intro e he; rw [List.mem_singleton.mp he]; exact fun h => h
    · intro e he hl; rw [List.mem_singleton.mp he] at hl; simp [Event.leafAt] at hl
  · simp only [herr, Bool.false_eq_true, if_false]
    obtain ⟨h1, h2, h3, h4, h5⟩ := walkFields_break env V walk l key field hk hig hb
      (fieldNames (some dest0)) dest0 (V.VisitMap l.Source l.Schema st).2 hf
    simp only [Res.after]
    refine ⟨?_, ?_, ?_, ?_, h5⟩
    · intro e he
      rcases List.mem_append.mp he with h | h
      · rw [List.mem_singleton.mp h]; exact fun x => x
      · exact h1 e h
    · intro e he hl
      rcases List.mem_append.mp he with h | h
      · rw [List.mem_singleton.mp h] at hl; simp [Event.leafAt] at hl
      · exact h2 e h hl
    · rw [List.countP_append]
      simpa [Event.leafAt] using h3
    · intro h0 d err ho
      rw [List.countP_append]
      simpa [Event.leafAt] using h4 h0 d err ho

theorem walkMap_break_witness :
    isIgnore (keyLine "image" "# +doc-gen:break") = false ∧
    isBreakout (keyLine "image" "# +doc-gen:break") = true ∧
    (walkMap plainEnv noopVisitor (Walk plainEnv noopVisitor indexPath 3)
      (rootWalker (.mapping [] [] [(keyLine "image" "# +doc-gen:break",
        .mapping [] [] [(key "repo", str "nginx")]), (key "b", str "2")])) ()).trace.countP
      (Event.leafAt (Join ((rootWalker (.mapping [] [] [(keyLine "image" "# +doc-gen:break",
        .mapping [] [] [(key "repo", str "nginx")]), (key "b", str "2")])).Path ++
        ["image".toList]) ".".toList))
      = (fieldNames (some (.mapping [] [] [(keyLine "image" "# +doc-gen:break",
        .mapping [] [] [(key "repo", str "nginx")]), (key "b", str "2")]))).count
        "image".toList :=
  ⟨by decide, by decide,
    (walkMap_break plainEnv noopVisitor (Walk plainEnv noopVisitor indexPath 3)
      (rootWalker (.mapping [] [] [(keyLine "image" "# +doc-gen:break",
        .mapping [] [] [(key "repo", str "nginx")]), (key "b", str "2")])) ()
      (.mapping [] [] [(keyLine "image" "# +doc-gen:break",
        .mapping [] [] [(key "repo", str "nginx")]), (key "b", str "2")])
      "image".toList
      (keyLine "image" "# +doc-gen:break", .mapping [] [] [(key "repo", str "nginx")])
      rfl rfl rfl (by decide) (by decide)).2.2.2.1 (by decide) _ _ rfl⟩

/-! ## map.go: valueIfPresent and fieldValue -/

theorem valueIfPresent_value_read (env : Env) (node : MapNode)
    (hval : (env.Read ⟨SpecSchema.zero, []⟩ node.2).1 = none) :
    ∃ s, valueIfPresent env (some node) = some (some node.2, s) := by
  simp only [valueIfPresent, hval, if_true]
  split
  · split
    · split
      · split
        · rename_i h; split at h <;> simp at h
        · exact ⟨_, rfl⟩
      · exact ⟨_, rfl⟩
    · exact ⟨_, rfl⟩
  · exact ⟨_, rfl⟩

theorem valueIfPresent_some (env : Env) (hlib : ReadKeepsSchema env) (node : MapNode) :
    ∃ s, valueIfPresent env (some node) = some (some node.2, s) := by
  by_cases hval : (env.Read ⟨SpecSchema.zero, []⟩ node.2).1 = none
  · exact valueIfPresent_value_read env node hval
  · have hne := hlib _ _ hval
    simp only [valueIfPresent, hval, if_false, hne, Bool.false_eq_true]
    exact ⟨_, rfl⟩

theorem valueIfPresent_local (env : Env) (node : MapNode)
    (hres : ∀ ref, (env.Resolve ref).1 = none ∨ (env.Resolve ref).2 ≠ none) :
    ∃ s, valueIfPresent env (some node) = some (some node.2, s) ∧
      (s = none ∨ s = some ⟨some (env.Read ⟨SpecSchema.zero, []⟩ node.2).2.Schema⟩ ∨
        s = some ⟨some (env.Read (env.Read ⟨SpecSchema.zero, []⟩ node.2).2
          (.scalar node.1)).2.Schema⟩) := by
  have hri : ∀ fm s, resolveInto env fm s = s := by
    intro fm s
    unfold resolveInto
    split
    · split
      · rename_i r hr
        rcases hres fm.Schema.Ref with h | h
        · rw [hr] at h; simp at h
        · rw [hr] at h; simp at h
      · rfl
    · rfl
  have hno : ∀ ref r, env.Resolve ref ≠ (some r, none) := by
    intro ref r hr
    rcases hres ref with h | h
    · rw [hr] at h; simp at h
    · rw [hr] at h; simp at h
  simp only [valueIfPresent, hri]
  by_cases h1 : (env.Read ⟨SpecSchema.zero, []⟩ node.2).1 = none
  · by_cases he : (env.Read ⟨SpecSchema.zero, []⟩ node.2).2.IsEmpty = true
    · simp only [h1, if_true, he]
      by_cases h2 : (env.Read (env.Read ⟨SpecSchema.zero, []⟩ node.2).2
          (.scalar node.1)).1 = none
      · simp only [h2, if_true]
        split
        · split
          · rename_i r hr; exact absurd hr (hno _ _)
          · exact ⟨_, rfl, Or.inr (Or.inr rfl)⟩
        · exact ⟨_, rfl, Or.inr (Or.inr rfl)⟩
      · simp only [h2, if_false]
        split
        · split
          · rename_i r hr; exact absurd hr (hno _ _)
          · exact ⟨_, rfl, Or.inr (Or.inr rfl)⟩
        · exact ⟨_, rfl, Or.inr (Or.inr rfl)⟩
    · simp only [h1, if_true, he, Bool.false_eq_true, if_false]
      exact ⟨_, rfl, Or.inr (Or.inl rfl)⟩
  · by_cases he : (env.Read ⟨SpecSchema.zero, []⟩ node.2).2.IsEmpty = true
    · simp only [h1, if_false, he, if_true]
      by_cases h2 : (env.Read (env.Read ⟨SpecSchema.zero, []⟩ node.2).2
          (.scalar node.1)).1 = none
      · simp only [h2, if_true]
        split
        · split
          · rename_i r hr; exact absurd hr (hno _ _)
          · exact ⟨_, rfl, Or.inr (Or.inr rfl)⟩
        · exact ⟨_, rfl, Or.inr (Or.inr rfl)⟩
      · simp only [h2, if_false]
        split
        · split
          · rename_i r hr; exact absurd hr (hno _ _)
          · exact ⟨_, rfl, Or.inl rfl⟩
        · exact ⟨_, rfl, Or.inl rfl⟩
    · simp only [h1, if_false, he, Bool.false_eq_true]
      exact ⟨_, rfl, Or.inl rfl⟩

/-- C7: when `Read` keeps to its contract (a failed read leaves the metadata it was
given non-empty), then for every field node, every outcome of reading the marker from the
value and from the key and every outcome of resolving a reference, `valueIfPresent` and
`fieldValue` return without panic the value of the field (nil for a nil node or source)
and an optional schema; and when no reference resolves, that schema is nil or the schema
declared in the comments that were read. -/
theorem valueIfPresent_fieldValue_return (env : Env) (hlib : ReadKeepsSchema env)
    (node : Option MapNode) (source : Option RNode) (fieldName : GoString) :
    (∃ s, valueIfPresent env node = some (node.map (fun n => n.2), s)) ∧
    (∃ s, fieldValue env source fieldName
      = some ((source.bind (fun src => src.Field fieldName)).map (fun n => n.2), s)) ∧
    ((∀ ref, (env.Resolve ref).1 = none ∨ (env.Resolve ref).2 ≠ none) →
      ∀ n : MapNode, ∃ s, valueIfPresent env (some n) = some (some n.2, s) ∧
        (s = none ∨ s = some ⟨some (env.Read ⟨SpecSchema.zero, []⟩ n.2).2.Schema⟩ ∨
          s = some ⟨some (env.Read (env.Read ⟨SpecSchema.zero, []⟩ n.2).2
            (.scalar n.1)).2.Schema⟩)) := by
  have hv : ∀ nd : Option MapNode,
      ∃ s, valueIfPresent env nd = some (nd.map (fun n => n.2), s) := by
    intro nd
    cases nd with
    | none => exact ⟨none, rfl⟩
    | some n => exact valueIfPresent_some env hlib n
  refine ⟨hv node, ?_, fun hres n => valueIfPresent_local env n hres⟩
  cases source with
  | none => exact ⟨none, rfl⟩
  | some src =>
    obtain ⟨s, hs⟩ := hv (src.Field fieldName)
    exact ⟨if !ResourceSchema.IsEmpty s then s else none, by
      simp only [fieldValue, hs]; rfl⟩

theorem valueIfPresent_fieldValue_return_witness :
    ReadKeepsSchema failingExtensionEnv ∧
    (∃ s, valueIfPresent failingExtensionEnv (some (key "a", str "1"))
      = some ((some (key "a", str "1")).map (fun n => n.2), s)) :=
  ⟨fun _ _ _ => rfl,
    (valueIfPresent_fieldValue_return failingExtensionEnv (fun _ _ _ => rfl)
      (some (key "a", str "1")) none []).1⟩

/-- C2 fails as stated: a key tagged null is passed over before its comments are looked
at, and a key whose visit as a scalar fails ends the walk: in both cases VisitLeaf is not
called for a key that carries the break directive and no ignore directive. When the name
of the break key occurs twice, VisitLeaf is called twice for its first field; and when
the break key comes after another field of its name, that first field is walked at the
same path and the break key is never visited. -/
theorem break_not_visited :
    isBreakout ⟨NullNodeTag, "~".toList, [], "# +doc-gen:break".toList⟩ = true ∧
    isIgnore ⟨NullNodeTag, "~".toList, [], "# +doc-gen:break".toList⟩ = false ∧
    leafPaths (walkMap plainEnv noopVisitor (Walk plainEnv noopVisitor indexPath 3)
      (rootWalker (.mapping [] []
        [(⟨NullNodeTag, "~".toList, [], "# +doc-gen:break".toList⟩, str "1")])) ()).trace
      = [] ∧
    isBreakout (keyLine "a" "# +doc-gen:break") = true ∧
    isIgnore (keyLine "a" "# +doc-gen:break") = false ∧
    leafPaths (walkMap plainEnv failingVisitor (Walk plainEnv failingVisitor indexPath 3)
      (rootWalker (.mapping [] [] [(keyLine "a" "# +doc-gen:break", str "1")])) ()).trace
      = [] ∧
    leafPaths (walkMap plainEnv noopVisitor (Walk plainEnv noopVisitor indexPath 3)
      (rootWalker (.mapping [] [] [(keyLine "a" "# +doc-gen:break", str "1"),
        (key "a", str "2")])) ()).trace = ["a".toList, "a".toList] ∧
    leafValues (walkMap plainEnv noopVisitor (Walk plainEnv noopVisitor indexPath 3)
      (rootWalker (.mapping [] [] [(key "a", .mapping [] [] [(key "x", str "1")]),
        (keyLine "a" "# +doc-gen:break", str "2")])) ()).trace
      = ["1".toList, "1".toList] ∧
    leafPaths (walkMap plainEnv noopVisitor (Walk plainEnv noopVisitor indexPath 3)
      (rootWalker (.mapping [] [] [(key "a", .mapping [] [] [(key "x", str "1")]),
        (keyLine "a" "# +doc-gen:break", str "2")])) ()).trace
      = ["a.x".toList, "a.x".toList] := by
  decide

/-! ## the walk under a no-op Visitor -/

/-- C8 fails as stated: FieldSetter clears a field whose value is tagged null, so the
no-op walk of the map `a: null, b: 1` returns a destination without the field `a`,
whether or not the keys are visited as scalars. -/
theorem noop_walk_drops_null :
    fieldNames (some (.mapping [] [] [(key "a", nullNode), (key "b", str "1")]))
      = ["a".toList, "b".toList] ∧
    fieldNames (Walk plainEnv noopVisitor indexPath 3
      (plainWalker (.mapping [] [] [(key "a", nullNode), (key "b", str "1")])) ()).dest
      = ["b".toList] ∧
    fieldNames (Walk plainEnv noopVisitor indexPath 3
      (rootWalker (.mapping [] [] [(key "a", nullNode), (key "b", str "1")])) ()).dest
      = ["b".toList] := by
  decide

theorem settableFields_mem (clears : RNode → Bool) :
    ∀ (fs : List MapNode), settableFields clears fs = true → ∀ f ∈ fs,
      f.1.Value ≠ [] ∧ clears f.2 = false ∧ f.2.settable clears = true := by
  intro fs
  induction fs with
  | nil => intro _ f hf; simp at hf
  | cons x tl ih =>
    intro h f hf
    obtain ⟨k, v⟩ := x
    simp only [settableFields, Bool.and_eq_true, Bool.not_eq_true', decide_eq_false_iff_not]
      at h
    rcases List.mem_cons.mp hf with rfl | hmem
    · exact ⟨h.1.1.1, h.1.1.2, h.1.2⟩
    · exact ih h.2 f hmem

theorem settableItems_mem (clears : RNode → Bool) :
    ∀ (is : List RNode), settableItems clears is = true → ∀ v ∈ is,
      v.settable clears = true := by
  intro is
  induction is with
  | nil => intro _ f hf; simp at hf
  | cons x tl ih =>
    intro h f hf
    simp only [settableItems, Bool.and_eq_true] at h
    rcases List.mem_cons.mp hf with rfl | hmem
    · exact h.1
    · exact ih h.2 f hmem

theorem depthFields_mem : ∀ (fs : List MapNode), ∀ f ∈ fs, f.2.depth ≤ depthFields fs := by
  intro fs
  induction fs with
  | nil => intro f hf; simp at hf
  | cons x tl ih =>
    intro f hf
    obtain ⟨k, v⟩ := x
    simp only [depthFields]
    rcases List.mem_cons.mp hf with rfl | hmem
    · exact le_max_left _ _
    · exact le_trans (ih f hmem) (le_max_right _ _)

theorem depthItems_mem : ∀ (is : List RNode), ∀ v ∈ is, v.depth ≤ depthItems is := by
  intro is
  induction is with
  | nil => intro f hf; simp at hf
  | cons x tl ih =>
    intro f hf
    simp only [depthItems]
    rcases List.mem_cons.mp hf with rfl | hmem
    · exact le_max_left _ _
    · exact le_trans (ih f hmem) (le_max_right _ _)

theorem setFirst_self (name : GoString) :
    ∀ (fs : List MapNode) (f : MapNode),
      fs.find? (fun g => decide (g.1.Value = name)) = some f → setFirst name f.2 fs = fs := by
  intro fs
  induction fs with
  | nil => intro f h; simp at h
  | cons x tl ih =>
    intro f h
    by_cases hx : x.1.Value = name
    · simp only [List.find?_cons, hx, decide_True, Option.some.injEq] at h
      simp [setFirst, hx, ← h]
    · simp only [List.find?_cons, hx, decide_False] at h
      simp [setFirst, hx, ih f h]

theorem fieldValue_found (env : Env)
    (hread : ∀ n, (env.Read ⟨SpecSchema.zero, []⟩ n).1 = none)
    (dest : RNode) (name : GoString) (f : MapNode) (hf : dest.Field name = some f) :
    ∃ cs, fieldValue env (some dest) name = some (some f.2, cs) := by
  obtain ⟨s, hs⟩ := valueIfPresent_value_read env f (hread f.2)
  refine ⟨if !ResourceSchema.IsEmpty s then s else none, ?_⟩
  simp only [fieldValue, hf, hs]

theorem FieldSetter_same (clears : RNode → Bool) (h c : GoString) (fs : List MapNode)
    (name : GoString) (f : MapNode) (hf : (RNode.mapping h c fs).Field name = some f)
    (hname : name ≠ []) (hclear : clears f.2 = false) :
    FieldSetter clears (.mapping h c fs) name (some f.2) = .ok (.mapping h c fs) := by
  simp only [RNode.Field] at hf
  simp [FieldSetter, hname, hclear, hf, setFirst_self name fs f hf]

theorem walkValue_noop (env : Env)
    (hread : ∀ n, (env.Read ⟨SpecSchema.zero, []⟩ n).1 = none)
    (walk : Walker → Unit → Res Unit) (l : Walker) (h c : GoString) (fs : List MapNode)
    (name : GoString) (f : MapNode) (hf : (RNode.mapping h c fs).Field name = some f)
    (hname : name ≠ []) (hclear : clears f.2 = false) (hcl : clears = env.clears)
    (hwalk : ∀ sub, sub.Source = some f.2 → (walk sub ()).out = .ret (some f.2) none) :
    ∃ tr, walkValue env walk l name (.mapping h c fs) () = .next (.mapping h c fs) () tr := by
  obtain ⟨cs, hcs⟩ := fieldValue_found env hread _ name f hf
  subst hcl
  simp only [walkValue, hcs]
  have hw := hwalk (subWalker l name (fieldSchema env l name cs) (some f.2)) rfl
  simp only [setValue, hw, Option.isSome_none, Bool.false_eq_true, if_false,
    FieldSetter_same env.clears h c fs name f hf hname hclear]
  exact ⟨_, rfl⟩

theorem walkField_noop (env : Env)
    (hread : ∀ n, (env.Read ⟨SpecSchema.zero, []⟩ n).1 = none)
    (walk : Walker → Unit → Res Unit) (l : Walker) (h c : GoString) (fs : List MapNode)
    (name : GoString) (f : MapNode) (hf : (RNode.mapping h c fs).Field name = some f)
    (hname : name ≠ []) (hclear : env.clears f.2 = false)
    (hwalk : ∀ sub, sub.Source = some f.2 → (walk sub ()).out = .ret (some f.2) none) :
    ∃ tr, walkField env noopVisitor walk l name (.mapping h c fs) ()
      = .next (.mapping h c fs) () tr := by
  obtain ⟨tr, htr⟩ := walkValue_noop env hread walk l h c fs name f hf hname hclear rfl hwalk
  unfold walkField
  by_cases hk : l.VisitKeysAsScalars = true
  · simp only [hk, if_true, hf]
    by_cases h0 : IsEmpty (some (.scalar f.1)) = true
    · simp only [h0, if_true]; exact ⟨_, rfl⟩
    · simp only [h0, Bool.false_eq_true, if_false, noopVisitor, Option.isSome_none]
      by_cases h2 : isIgnore f.1 = true
      · simp only [h2, if_true]; exact ⟨_, rfl⟩
      · simp only [h2, Bool.false_eq_true, if_false, visitField, Option.isSome_none]
        by_cases h3 : isLeaf f = true
        · simp only [h3, if_true]
          by_cases h4 : isBreakout f.1 = true
          · simp only [h4, if_true, Step.after]; exact ⟨_, rfl⟩
          · simp only [h4, Bool.false_eq_true, if_false, htr, Step.after]; exact ⟨_, rfl⟩
        · simp only [h3, Bool.false_eq_true, if_false, htr, Step.after]; exact ⟨_, rfl⟩
  · simp only [hk, Bool.false_eq_true, if_false, htr]; exact ⟨_, rfl⟩

theorem walkFields_noop (env : Env)
    (hread : ∀ n, (env.Read ⟨SpecSchema.zero, []⟩ n).1 = none)
    (walk : Walker → Unit → Res Unit) (l : Walker) (h c : GoString) (fs : List MapNode) :
    ∀ (names : List GoString),
      (∀ name ∈ names, ∃ f, (RNode.mapping h c fs).Field name = some f ∧ name ≠ [] ∧
        env.clears f.2 = false ∧
        ∀ sub, sub.Source = some f.2 → (walk sub ()).out = .ret (some f.2) none) →
      (walkFields env noopVisitor walk l names (.mapping h c fs) ()).out
        = .ret (some (.mapping h c fs)) none := by
  intro names
  induction names with
  | nil => intro _; rfl
  | cons name rest ih =>
    intro hall
    obtain ⟨f, hf, hname, hclear, hwalk⟩ := hall name (List.mem_cons_self _ _)
    obtain ⟨tr, htr⟩ := walkField_noop env hread walk l h c fs name f hf hname hclear hwalk
    simp only [walkFields, htr, Res.after]
    exact ih (fun n hn => hall n (List.mem_cons_of_mem _ hn))

theorem Field_of_mem_names (h c : GoString) (fs : List MapNode) (name : GoString)
    (hn : name ∈ fieldNames (some (.mapping h c fs))) :
    ∃ f, (RNode.mapping h c fs).Field name = some f ∧ f ∈ fs ∧ f.1.Value = name := by
  simp only [fieldNames, RNode.Fields, Option.getD_some, List.mem_map] at hn
  obtain ⟨g, hg, hgn⟩ := hn
  cases hfind : fs.find? (fun f => decide (f.1.Value = name)) with
  | none =>
    have := List.find?_eq_none.mp hfind g hg
    simp [hgn] at this
  | some f =>
    refine ⟨f, by simp [RNode.Field, hfind], List.mem_of_find?_eq_some hfind, ?_⟩
    have := List.find?_some hfind
    simpa using this

theorem walkItems_noop (walk : Walker → Unit → Res Unit) (l : Walker)
    (elemPath : List GoString → Nat → List GoString) :
    ∀ (items : List RNode) (i : Nat),
      (∀ v ∈ items, ∀ sub, sub.Source = some v → (walk sub ()).out = .ret (some v) none) →
      (walkItems walk l elemPath items i ()).1 = .inr items := by
  intro items
  induction items with
  | nil => intro i _; rfl
  | cons x rest ih =>
    intro i hall
    have hx := hall x (List.mem_cons_self _ _) (elemWalker l elemPath x i) rfl
    have hrest := ih (i + 1) (fun v hv => hall v (List.mem_cons_of_mem _ hv))
    simp only [walkItems, consItem, hx, Option.isSome_none, Bool.false_eq_true, if_false]
    generalize walkItems walk l elemPath rest (i + 1)
      (walk (elemWalker l elemPath x i) ()).st = q at hrest ⊢
    rcases q with ⟨a, s3, tr2⟩
    simp only at hrest
    subst hrest
    rfl

theorem noopVisitor_VisitList (src : Option RNode) (sc : Option ResourceSchema) :
    noopVisitor.VisitList src sc () = ((src, none), ()) := rfl

theorem noopVisitor_VisitMap (src : Option RNode) (sc : Option ResourceSchema) :
    noopVisitor.VisitMap src sc () = ((src, none), ()) := rfl

theorem Walk_noop (env : Env)
    (hread : ∀ n, (env.Read ⟨SpecSchema.zero, []⟩ n).1 = none)
    (elemPath : List GoString → Nat → List GoString) :
    ∀ (depth : Nat) (doc : RNode) (l : Walker), doc.depth < depth →
      doc.settable env.clears = true → l.Source = some doc →
      (Walk env noopVisitor elemPath depth l ()).out = .ret (some doc) none := by
  intro depth
  induction depth with
  | zero => intro doc l hd; exact absurd hd (Nat.not_lt_zero _)
  | succ n ih =>
    intro doc l hd hs hsrc
    unfold Walk
    cases doc with
    | scalar d => simp only [hsrc, walkScalar, noopVisitor]
    | mapping h c fs =>
      simp only [hsrc, walkMap, noopVisitor_VisitMap, Option.isSome_none,
        Bool.false_eq_true, if_false, Res.after]
      apply walkFields_noop env hread
      intro name hn
      obtain ⟨f, hf, hmem, _⟩ := Field_of_mem_names h c fs name hn
      simp only [RNode.settable] at hs
      obtain ⟨h1, h2, h3⟩ := settableFields_mem env.clears fs hs f hmem
      refine ⟨f, hf, ?_, h2, ?_⟩
      · have := Field_of_mem_names h c fs name hn
        obtain ⟨g, hg, _, hgn⟩ := this
        rw [hf] at hg
        cases hg
        rw [← hgn]; exact h1
      · intro sub hsub
        have hdep : f.2.depth < n := by
          have := depthFields_mem fs f hmem
          simp only [RNode.depth] at hd
          omega
        exact ih f.2 sub hdep h3 hsub
    | sequence h c items =>
      simp only [hsrc, walkSequence, noopVisitor_VisitList, Option.isSome_none,
        Bool.false_eq_true, if_false]
      simp only [RNode.settable] at hs
      have hi := walkItems_noop (Walk env noopVisitor elemPath n) l elemPath items 0
        (fun v hv sub hsub => by
          have hdep : v.depth < n := by
            have := depthItems_mem items v hv
            simp only [RNode.depth] at hd
            omega
          exact ih v sub hdep (settableItems_mem env.clears items hs v hv) hsub)
      generalize walkItems (Walk env noopVisitor elemPath n) l elemPath items 0 () = q
        at hi ⊢
      rcases q with ⟨a, s3, tr2⟩
      simp only at hi
      subst hi
      rfl

/-- C8, as the code has it: when no field of the source tree has an empty name or a value
that FieldSetter clears (a value tagged null), and reading the type marker of a value
does not fail, the walk with the no-op Visitor, given the depth of the tree, returns a
destination equal to the source, and the walk of that destination returns it again. -/
theorem noop_walk_identity (env : Env)
    (hread : ∀ n, (env.Read ⟨SpecSchema.zero, []⟩ n).1 = none)
    (elemPath : List GoString → Nat → List GoString) (depth : Nat) (doc : RNode)
    (l : Walker) (hd : doc.depth < depth) (hs : doc.settable env.clears = true)
    (hsrc : l.Source = some doc) :
    (Walk env noopVisitor elemPath depth l ()).out = .ret (some doc) none ∧
    (∀ l2 : Walker, l2.Source = (Walk env noopVisitor elemPath depth l ()).dest →
      (Walk env noopVisitor elemPath depth l2 ()).out = .ret (some doc) none) := by
  have h1 := Walk_noop env hread elemPath depth doc l hd hs hsrc
  refine ⟨h1, ?_⟩
  intro l2 hl2
  simp only [Res.dest, h1] at hl2
  exact Walk_noop env hread elemPath depth doc l2 hd hs hl2

theorem noop_walk_identity_witness :
    sampleDoc.depth < 4 ∧ sampleDoc.settable plainEnv.clears = true ∧
    (Walk plainEnv noopVisitor indexPath 4 (rootWalker sampleDoc) ()).out
      = .ret (some sampleDoc) none :=
  ⟨by decide, by decide,
    (noop_walk_identity plainEnv (fun _ => rfl) indexPath 4 sampleDoc (rootWalker sampleDoc)
      (by decide) (by decide) rfl).1⟩

/-! ## the rows of a walk -/

/-- C3 fails as stated: without any directive, the scalar field under a key tagged null
is not visited; of two fields with the same name the first is visited twice and the
second never; and a field with an empty name ends the walk with FieldSetter's error
before the fields after it are visited. -/
theorem leaf_fields_not_all_visited :
    leafField (⟨NullNodeTag, "~".toList, [], []⟩, str "1") = true ∧
    leafPaths (Walk plainEnv noopVisitor indexPath 3 (rootWalker (.mapping [] []
      [(⟨NullNodeTag, "~".toList, [], []⟩, str "1")])) ()).trace = [] ∧
    leafValues (Walk plainEnv noopVisitor indexPath 3 (rootWalker (.mapping [] []
      [(key "a", str "1"), (key "a", str "2")])) ()).trace = ["1".toList, "1".toList] ∧
    leafPaths (Walk plainEnv noopVisitor indexPath 3 (rootWalker (.mapping [] []
      [(key "", str "1"), (key "b", str "2")])) ()).trace = ["".toList] := by
  decide

theorem leafPaths_append (a b : List Event) :
    leafPaths (a ++ b) = leafPaths a ++ leafPaths b := by
  induction a with
  | nil => simp [leafPaths]
  | cons x tl ih => simp [leafPaths, ih]

theorem FieldSetter_mapping (clears : RNode → Bool) (h c : GoString) (fs : List MapNode)
    (name : GoString) (val : Option RNode) (hname : name ≠ []) :
    ∃ fs2, FieldSetter clears (.mapping h c fs) name val = .ok (.mapping h c fs2) := by
  simp only [FieldSetter, hname, if_false]
  cases val with
  | none => exact ⟨_, rfl⟩
  | some v =>
    simp only
    by_cases hc : clears v = true
    · simp only [hc, if_true]; exact ⟨_, rfl⟩
    · simp only [hc, Bool.false_eq_true, if_false]
      by_cases hfound : (fs.find? (fun f => decide (f.1.Value = name))).isSome = true
      · simp only [hfound, if_true]; exact ⟨_, rfl⟩
      · simp only [hfound, Bool.false_eq_true, if_false]; exact ⟨_, rfl⟩

theorem walkValue_rows (env : Env)
    (hread : ∀ n, (env.Read ⟨SpecSchema.zero, []⟩ n).1 = none)
    (walk : Walker → Unit → Res Unit) (l : Walker) (h c : GoString) (fs : List MapNode)
    (name : GoString) (f : MapNode) (rows : List GoString)
    (hf : (RNode.mapping h c fs).Field name = some f) (hname : name ≠ [])
    (hwalk : ∀ sub, sub.Source = some f.2 →
      sub.VisitKeysAsScalars = l.VisitKeysAsScalars → sub.Path = l.Path ++ [name] →
      (∃ val, (walk sub ()).out = .ret val none) ∧ leafPaths (walk sub ()).trace = rows) :
    ∃ fs2 tr, walkValue env walk l name (.mapping h c fs) () = .next (.mapping h c fs2) () tr ∧
      leafPaths tr = rows ∧
      ∀ key, name ≠ key → (RNode.mapping h c fs2).Field key = (RNode.mapping h c fs).Field key := by
  obtain ⟨cs, hcs⟩ := fieldValue_found env hread _ name f hf
  obtain ⟨⟨val, hval⟩, hrows⟩ :=
    hwalk (subWalker l name (fieldSchema env l name cs) (some f.2)) rfl rfl rfl
  obtain ⟨fs2, hfs2⟩ := FieldSetter_mapping env.clears h c fs name val hname
  refine ⟨fs2, [.walk (subWalker l name (fieldSchema env l name cs) (some f.2))
    (walk (subWalker l name (fieldSchema env l name cs) (some f.2)) ()).trace,
    .setField name val], ?_, ?_, ?_⟩
  · simp only [walkValue, hcs, setValue, hval, Option.isSome_none, Bool.false_eq_true,
      if_false, hfs2]
  · simp only [leafPaths, Event.leafPaths, List.append_nil]
    exact hrows
  · intro key hne
    exact FieldSetter_Field_other _ _ _ _ _ _ hne hfs2

theorem walkField_rows (env : Env)
    (hread : ∀ n, (env.Read ⟨SpecSchema.zero, []⟩ n).1 = none)
    (walk : Walker → Unit → Res Unit) (l : Walker) (h c : GoString) (fs : List MapNode)
    (name : GoString) (f : MapNode) (rows : List GoString)
    (hk : l.VisitKeysAsScalars = true)
    (hf : (RNode.mapping h c fs).Field name = some f) (hname : name ≠ [])
    (h0 : IsEmpty (some (.scalar f.1)) = false) (hig : isIgnore f.1 = false)
    (hb : isBreakout f.1 = false)
    (hwalk : ∀ sub, sub.Source = some f.2 →
      sub.VisitKeysAsScalars = l.VisitKeysAsScalars → sub.Path = l.Path ++ [name] →
      (∃ val, (walk sub ()).out = .ret val none) ∧ leafPaths (walk sub ()).trace = rows) :
    ∃ fs2 tr, walkField env noopVisitor walk l name (.mapping h c fs) ()
        = .next (.mapping h c fs2) () tr ∧
      leafPaths tr =
        (if leafField f then [Join (l.Path ++ [name]) ".".toList] else []) ++ rows ∧
      ∀ key, name ≠ key → (RNode.mapping h c fs2).Field key = (RNode.mapping h c fs).Field key := by
  obtain ⟨fs2, tr, h1, h2, h3⟩ := walkValue_rows env hread walk l h c fs name f rows hf hname hwalk
  have hleaf : isLeaf f = leafField f := by simp [isLeaf, leafField, hb]
  by_cases hl : leafField f = true
  · refine ⟨fs2, [.visitScalar (some (.scalar f.1)) none] ++
      ([.visitLeaf (.scalar f.1) f.2 (Join (l.Path ++ [name]) ".".toList) none] ++ tr),
      ?_, ?_, h3⟩
    · simp only [walkField, hk, if_true, hf, h0, Bool.false_eq_true, if_false, noopVisitor,
        Option.isSome_none, hig, visitField, hleaf, hb, hl, h1, Step.after]
    · simp [hl, leafPaths, Event.leafPaths, h2]
  · refine ⟨fs2, [.visitScalar (some (.scalar f.1)) none] ++ tr, ?_, ?_, h3⟩
    · simp only [walkField, hk, if_true, hf, h0, Bool.false_eq_true, if_false, noopVisitor,
        Option.isSome_none, hig, visitField, hleaf, hb, hl, h1, Step.after]
    · simp [hl, leafPaths, Event.leafPaths, h2]

theorem cleanFields_cons (k : ScalarData) (v : RNode) (tl : List MapNode)
    (h : cleanFields ((k, v) :: tl) = true) :
    IsEmpty (some (.scalar k)) = false ∧ k.Value ≠ [] ∧ isIgnore k = false ∧
    isBreakout k = false ∧ k.Value ∉ tl.map (fun f => f.1.Value) ∧ v.clean = true ∧
    cleanFields tl = true := by
  simp only [cleanFields, Bool.and_eq_true, Bool.not_eq_true', decide_eq_false_iff_not] at h
  obtain ⟨⟨⟨⟨⟨⟨a, b⟩, c⟩, d⟩, e⟩, f⟩, g⟩ := h
  exact ⟨a, b, c, d, e, f, g⟩

theorem cleanFields_mem : ∀ (fs : List MapNode), cleanFields fs = true → ∀ f ∈ fs,
    f.2.clean = true ∧ fs.find? (fun g => decide (g.1.Value = f.1.Value)) = some f := by
  intro fs
  induction fs with
  | nil => intro _ f hf; simp at hf
  | cons x tl ih =>
    intro h f hf
    obtain ⟨k, v⟩ := x
    obtain ⟨_, _, _, _, hnot, hv, htl⟩ := cleanFields_cons k v tl h
    rcases List.mem_cons.mp hf with rfl | hmem
    · exact ⟨hv, by simp⟩
    · obtain ⟨h1, h2⟩ := ih htl f hmem
      refine ⟨h1, ?_⟩
      have hne : ¬ k.Value = f.1.Value := by
        intro heq
        exact hnot (by rw [heq]; exact List.mem_map_of_mem _ hmem)
      simp [List.find?_cons, hne, h2]

theorem cleanItems_mem : ∀ (is : List RNode), cleanItems is = true → ∀ v ∈ is,
    v.clean = true := by
  intro is
  induction is with
  | nil => intro _ f hf; simp at hf
  | cons x tl ih =>
    intro h f hf
    simp only [cleanItems, Bool.and_eq_true] at h
    rcases List.mem_cons.mp hf with rfl | hmem
    · exact h.1
    · exact ih h.2 f hmem

theorem walkFields_rows (env : Env)
    (hread : ∀ n, (env.Read ⟨SpecSchema.zero, []⟩ n).1 = none)
    (walk : Walker → Unit → Res Unit) (l : Walker) (h c : GoString)
    (elemPath : List GoString → Nat → List GoString) (hk : l.VisitKeysAsScalars = true) :
    ∀ (rest fs : List MapNode), cleanFields rest = true →
      (∀ f ∈ rest, (RNode.mapping h c fs).Field f.1.Value = some f) →
      (∀ f ∈ rest, ∀ sub, sub.Source = some f.2 →
        sub.VisitKeysAsScalars = l.VisitKeysAsScalars → sub.Path = l.Path ++ [f.1.Value] →
        (∃ val, (walk sub ()).out = .ret val none) ∧
        leafPaths (walk sub ()).trace = f.2.leafFields elemPath (l.Path ++ [f.1.Value])) →
      (∃ val, (walkFields env noopVisitor walk l (rest.map (fun f => f.1.Value))
        (.mapping h c fs) ()).out = .ret val none) ∧
      leafPaths (walkFields env noopVisitor walk l (rest.map (fun f => f.1.Value))
        (.mapping h c fs) ()).trace = leafFieldsOfFields elemPath l.Path rest := by
  intro rest
  induction rest with
  | nil => intro fs _ _ _; exact ⟨⟨_, rfl⟩, rfl⟩
  | cons x tl ih =>
    intro fs hclean hfield hwalk
    obtain ⟨k, v⟩ := x
    obtain ⟨h0, hname, hig, hb, hnot, _, htl⟩ := cleanFields_cons k v tl hclean
    obtain ⟨fs2, tr, h1, h2, h3⟩ := walkField_rows env hread walk l h c fs k.Value (k, v)
      (v.leafFields elemPath (l.Path ++ [k.Value])) hk
      (hfield (k, v) (List.mem_cons_self _ _)) hname h0 hig hb
      (hwalk (k, v) (List.mem_cons_self _ _))
    have hfield2 : ∀ f ∈ tl, (RNode.mapping h c fs2).Field f.1.Value = some f := by
      intro f hf
      have hne : k.Value ≠ f.1.Value := by
        intro heq
        exact hnot (by rw [heq]; exact List.mem_map_of_mem _ hf)
      rw [h3 f.1.Value hne]
      exact hfield f (List.mem_cons_of_mem _ hf)
    obtain ⟨i1, i2⟩ := ih fs2 htl hfield2
      (fun f hf => hwalk f (List.mem_cons_of_mem _ hf))
    simp only [List.map_cons, walkFields, h1, Res.after]
    refine ⟨i1, ?_⟩
    rw [leafPaths_append, h2, i2]
    simp only [leafFieldsOfFields, List.append_assoc]

theorem walkItems_rows (walk : Walker → Unit → Res Unit) (l : Walker)
    (elemPath : List GoString → Nat → List GoString) :
    ∀ (items : List RNode) (i : Nat),
      (∀ v ∈ items, ∀ sub, sub.Source = some v →
        sub.VisitKeysAsScalars = l.VisitKeysAsScalars →
        (∃ val, (walk sub ()).out = .ret val none) ∧
        leafPaths (walk sub ()).trace = v.leafFields elemPath sub.Path) →
      (∃ vals, (walkItems walk l elemPath items i ()).1 = .inr vals) ∧
      leafPaths (walkItems walk l elemPath items i ()).2.2
        = leafFieldsOfItems elemPath l.Path i items := by
  intro items
  induction items with
  | nil => intro i _; exact ⟨⟨_, rfl⟩, rfl⟩
  | cons x rest ih =>
    intro i hall
    obtain ⟨⟨val, hval⟩, hrows⟩ :=
      hall x (List.mem_cons_self _ _) (elemWalker l elemPath x i) rfl rfl
    obtain ⟨⟨vals, hvals⟩, hrest⟩ :=
      ih (i + 1) (fun v hv => hall v (List.mem_cons_of_mem _ hv))
    simp only [walkItems, consItem, hval, Option.isSome_none, Bool.false_eq_true, if_false]
    generalize walkItems walk l elemPath rest (i + 1)
      (walk (elemWalker l elemPath x i) ()).st = q at hvals hrest ⊢
    rcases q with ⟨a, s3, tr2⟩
    simp only at hvals hrest
    subst hvals
    refine ⟨⟨_, rfl⟩, ?_⟩
    simp only [leafPaths, Event.leafPaths, hrest, leafFieldsOfItems]
    rw [hrows]
    rfl

theorem Walk_rows (env : Env)
    (hread : ∀ n, (env.Read ⟨SpecSchema.zero, []⟩ n).1 = none)
    (elemPath : List GoString → Nat → List GoString) :
    ∀ (depth : Nat) (doc : RNode) (l : Walker), doc.depth < depth → doc.clean = true →
      l.Source = some doc → l.VisitKeysAsScalars = true →
      (∃ val, (Walk env noopVisitor elemPath depth l ()).out = .ret val none) ∧
      leafPaths (Walk env noopVisitor elemPath depth l ()).trace
        = doc.leafFields elemPath l.Path := by
  intro depth
  induction depth with
  | zero => intro doc l hd; exact absurd hd (Nat.not_lt_zero _)
  | succ n ih =>
    intro doc l hd hc hsrc hk
    unfold Walk
    cases doc with
    | scalar d =>
      simp only [hsrc, walkScalar]
      exact ⟨⟨_, rfl⟩, rfl⟩
    | mapping h c fs =>
      simp only [RNode.clean] at hc
      have hnames : fieldNames (some (.mapping h c fs)) = fs.map (fun f => f.1.Value) := rfl
      simp only [hsrc, walkMap, noopVisitor_VisitMap, Option.isSome_none,
        Bool.false_eq_true, if_false, Res.after, hnames]
      obtain ⟨i1, i2⟩ := walkFields_rows env hread (Walk env noopVisitor elemPath n) l h c
        elemPath hk fs fs hc
        (fun f hf => by simpa [RNode.Field] using (cleanFields_mem fs hc f hf).2)
        (fun f hf sub hsub hflag hpath => by
          have hdep : f.2.depth < n := by
            have := depthFields_mem fs f hf
            simp only [RNode.depth] at hd
            omega
          have := ih f.2 sub hdep (cleanFields_mem fs hc f hf).1 hsub (hflag.trans hk)
          rw [hpath] at this
          exact this)
      refine ⟨i1, ?_⟩
      rw [leafPaths_append, i2]
      rfl
    | sequence h c items =>
      simp only [RNode.clean] at hc
      simp only [hsrc, walkSequence, noopVisitor_VisitList, Option.isSome_none,
        Bool.false_eq_true, if_false]
      obtain ⟨⟨vals, hvals⟩, hrows⟩ :=
        walkItems_rows (Walk env noopVisitor elemPath n) l elemPath items 0
        (fun v hv sub hsub hflag => by
          have hdep : v.depth < n := by
            have := depthItems_mem items v hv
            simp only [RNode.depth] at hd
            omega
          exact ih v sub hdep (cleanItems_mem items hc v hv) hsub (hflag.trans hk))
      generalize walkItems (Walk env noopVisitor elemPath n) l elemPath items 0 () = q
        at hvals hrows ⊢
      rcases q with ⟨a, s3, tr2⟩
      simp only at hvals hrows
      subst hvals
      refine ⟨⟨_, rfl⟩, ?_⟩
      simp only [leafPaths, Event.leafPaths, List.nil_append, hrows, RNode.leafFields]

/-- C3, as the code has it: in a document where no key carries an ignore or break
directive, is tagged null or has an empty name, and the key names of each map are
pairwise different, the walk with VisitKeysAsScalars, given the depth of the document,
returns without error and its VisitLeaf calls are, in order, the leaf fields of the
document (the fields whose value is a scalar or is empty) in document order, pre-order
and depth first; so there are as many rows as leaf fields. -/
theorem walk_rows_document_order (env : Env)
    (hread : ∀ n, (env.Read ⟨SpecSchema.zero, []⟩ n).1 = none)
    (elemPath : List GoString → Nat → List GoString) (depth : Nat) (doc : RNode)
    (l : Walker) (hd : doc.depth < depth) (hc : doc.clean = true)
    (hsrc : l.Source = some doc) (hk : l.VisitKeysAsScalars = true) :
    leafPaths (Walk env noopVisitor elemPath depth l ()).trace
      = doc.leafFields elemPath l.Path ∧
    (leafPaths (Walk env noopVisitor elemPath depth l ()).trace).length
      = (doc.leafFields elemPath l.Path).length ∧
    (∃ val, (Walk env noopVisitor elemPath depth l ()).out = .ret val none) := by
  obtain ⟨h1, h2⟩ := Walk_rows env hread elemPath depth doc l hd hc hsrc hk
  exact ⟨h2, by rw [h2], h1⟩

theorem walk_rows_document_order_witness :
    sampleDoc.depth < 4 ∧ sampleDoc.clean = true ∧
    leafPaths (Walk plainEnv noopVisitor indexPath 4 (rootWalker sampleDoc) ()).trace
      = ["replicas".toList, "image.repo".toList, "image.tag".toList, "args.1.n".toList,
         "labels".toList] :=
  ⟨by decide, by decide,
    (walk_rows_document_order plainEnv (fun _ => rfl) indexPath 4 sampleDoc
      (rootWalker sampleDoc) (by decide) (by decide) rfl rfl).1.trans (by decide)⟩

end ChartDocGen
